import Mathlib
namespace Analyzer
abbrev Key : Type := String × String × Nat
abbrev Row : Type := List (String × Option ℝ)
structure DF where
  vcols : List String
  rows : List (Key × Row)
def colGet (c : String) : Row → Option (Option ℝ)
  | [] => none
  | p :: v => if p.1 = c then some p.2 else colGet c v
def rowFind (k : Key) : List (Key × Row) → Option Row
  | [] => none
  | r :: t => if r.1 = k then some r.2 else rowFind k t
def hasKey (t : DF) (k : Key) : Bool := (rowFind k t.rows).isSome
def cell (t : DF) (k : Key) (c : String) : Option (Option ℝ) :=
  (rowFind k t.rows).bind (colGet c)
def isEmptyDF (t : DF) : Bool := t.rows.isEmpty || t.vcols.isEmpty
def emptyDF : DF := ⟨[], []⟩
def WF (t : DF) : Prop := ∀ r ∈ t.rows, r.2.map Prod.fst = t.vcols
def sufX (other : List String) (c : String) : String :=
  if c ∈ other then c ++ "_x" else c
def sufY (other : List String) (c : String) : String :=
  if c ∈ other then c ++ "_y" else c
def rowRename (f : String → String) (v : Row) : Row :=
  v.map fun p => (f p.1, p.2)
def nanRow (cols : List String) : Row := cols.map fun c => (c, none)
def outerMerge (t1 t2 : DF) : DF :=
  { vcols := t1.vcols.map (sufX t2.vcols) ++ t2.vcols.map (sufY t1.vcols),
    rows :=
      (t1.rows.map fun r =>
        (r.1, rowRename (sufX t2.vcols) r.2 ++
          (match rowFind r.1 t2.rows with
           | some w => rowRename (sufY t1.vcols) w
           | none => nanRow (t2.vcols.map (sufY t1.vcols))))) ++
      ((t2.rows.filter fun r => !(hasKey t1 r.1)).map fun r =>
        (r.1, nanRow (t1.vcols.map (sufX t2.vcols)) ++
          rowRename (sufY t1.vcols) r.2)) }
def fillna0 (t : DF) : DF :=
  { vcols := t.vcols,
    rows := t.rows.map fun r => (r.1, r.2.map fun p => (p.1, some (p.2.getD 0))) }
def mergeStep (m t : DF) : DF :=
  if isEmptyDF m then t else if isEmptyDF t then m else outerMerge m t
def mergeDomains (e b d : DF) : DF :=
  fillna0 (mergeStep (mergeStep e b) d)

-- helper lemmas
theorem colGet_map_val (c : String) (f : Option ℝ → Option ℝ) (v : Row) :
    colGet c (v.map fun p => (p.1, f p.2)) = (colGet c v).map f := by
  induction v with
  | nil => rfl
  | cons p t ih =>
    by_cases h : p.1 = c <;> simp [colGet, h, ih]

theorem rowFind_map_snd (k : Key) (g : Row → Row) (l : List (Key × Row)) :
    rowFind k (l.map fun r => (r.1, g r.2)) = (rowFind k l).map g := by
  induction l with
  | nil => rfl
  | cons r t ih =>
    by_cases h : r.1 = k <;> simp [rowFind, h, ih]

theorem cell_fillna0 (t : DF) (k : Key) (c : String) :
    cell (fillna0 t) k c = (cell t k c).map fun w => some (w.getD 0) := by
  unfold cell fillna0
  rw [rowFind_map_snd]
  cases h : rowFind k t.rows with
  | none => rfl
  | some v => exact colGet_map_val c (fun w => some (w.getD 0)) v

theorem fillna0_keys (t : DF) :
    (fillna0 t).rows.map Prod.fst = t.rows.map Prod.fst := by
  simp [fillna0]

theorem isEmptyDF_fillna0 (t : DF) : isEmptyDF (fillna0 t) = isEmptyDF t := by
  obtain ⟨vc, rows⟩ := t
  cases rows <;> simp [isEmptyDF, fillna0]

/-- C4 (amended): if the three domain feature frames are all empty the
Domain Merger returns an empty frame; if exactly one is non-empty, no join
is performed and the merger returns that frame zero-filled: same columns,
same keys, every non-NaN cell unchanged, every NaN cell replaced by 0. -/
theorem mergeDomains_single (e b d : DF) :
    (isEmptyDF e = true → isEmptyDF b = true → isEmptyDF d = true →
      isEmptyDF (mergeDomains e b d) = true) ∧
    (isEmptyDF e = false → isEmptyDF b = true → isEmptyDF d = true →
      mergeDomains e b d = fillna0 e) ∧
    (isEmptyDF e = true → isEmptyDF b = false → isEmptyDF d = true →
      mergeDomains e b d = fillna0 b) ∧
    (isEmptyDF e = true → isEmptyDF b = true → isEmptyDF d = false →
      mergeDomains e b d = fillna0 d) := by
  refine ⟨fun he hb hd => ?_, fun he hb hd => ?_, fun he hb hd => ?_,
    fun he hb hd => ?_⟩ <;>
    simp [mergeDomains, mergeStep, he, hb, hd, isEmptyDF_fillna0]

/-- Frame with a single NaN cell: the smallest input showing that a lone
non-empty domain frame is returned modified (its NaN is zero-filled). -/
def oneNaNDF : DF := ⟨["x"], [(("A", "B", 1), [("x", none)])]⟩

/-- C4 counterexample: with only the enrolment frame non-empty and holding a
NaN cell, the Domain Merger does not return it unmodified. -/
theorem mergeDomains_single_cex : mergeDomains oneNaNDF emptyDF emptyDF ≠ oneNaNDF := by
  intro h
  have h2 := congrArg (fun t => cell t ("A", "B", 1) "x") h
  simp [mergeDomains, mergeStep, fillna0, isEmptyDF, oneNaNDF, emptyDF, cell,
    rowFind, colGet] at h2

/-- C4 witness: the amended theorem applied to a concrete single non-empty
frame. -/
theorem mergeDomains_single_witness :
    mergeDomains oneNaNDF emptyDF emptyDF = fillna0 oneNaNDF :=
  (mergeDomains_single oneNaNDF emptyDF emptyDF).2.1 (by decide) (by decide) (by decide)


-- ---------------------------------------------------------------------------
-- List-level helper lemmas for the merge characterization
-- ---------------------------------------------------------------------------

theorem colGet_eq_none (c : String) (v : Row) (h : c ∉ v.map Prod.fst) :
    colGet c v = none := by
  induction v with
  | nil => rfl
  | cons p t ih =>
    simp only [List.map_cons, List.mem_cons] at h
    push_neg at h
    simp [colGet, Ne.symm h.1, ih h.2]

theorem colGet_isSome (c : String) (v : Row) (h : c ∈ v.map Prod.fst) :
    (colGet c v).isSome = true := by
  induction v with
  | nil => simp at h
  | cons p t ih =>
    by_cases hp : p.1 = c
    · simp [colGet, hp]
    · simp only [List.map_cons, List.mem_cons] at h
      rcases h with h | h
      · exact absurd h.symm hp
      · simp [colGet, hp, ih h]

theorem colGet_append (c : String) (v1 v2 : Row) :
    colGet c (v1 ++ v2) = (colGet c v1).or (colGet c v2) := by
  induction v1 with
  | nil => simp [colGet]
  | cons p t ih =>
    by_cases hp : p.1 = c <;> simp [colGet, hp, ih]

theorem colGet_nanRow (c : String) (L : List String) :
    colGet c (nanRow L) = if c ∈ L then some none else none := by
  induction L with
  | nil => simp [nanRow, colGet]
  | cons s t ih =>
    by_cases hs : s = c
    · simp [nanRow, colGet, hs]
    · simp only [nanRow, List.map_cons, colGet, hs, if_false]
      rw [show List.map (fun c => (c, (none : Option ℝ))) t = nanRow t from rfl, ih]
      simp [Ne.symm hs]

theorem rowRename_fst (f : String → String) (v : Row) :
    (rowRename f v).map Prod.fst = (v.map Prod.fst).map f := by
  simp [rowRename]

theorem rowRename_congr_id (f : String → String) (v : Row)
    (h : ∀ s ∈ v.map Prod.fst, f s = s) : rowRename f v = v := by
  induction v with
  | nil => rfl
  | cons p t ih =>
    obtain ⟨a, x⟩ := p
    have h1 : f a = a := h a (by simp)
    have h2 : rowRename f t = t := ih fun s hs => h s (by simp [hs])
    simp only [rowRename, List.map_cons, List.cons.injEq] at h2 ⊢
    exact ⟨by simp [h1], h2⟩

theorem nanRow_fst (L : List String) : (nanRow L).map Prod.fst = L := by
  simp only [nanRow, List.map_map]
  exact List.map_id L

theorem rowFind_append (k : Key) (l1 l2 : List (Key × Row)) :
    rowFind k (l1 ++ l2) = (rowFind k l1).or (rowFind k l2) := by
  induction l1 with
  | nil => simp [rowFind]
  | cons r t ih =>
    by_cases hr : r.1 = k <;> simp [rowFind, hr, ih]

theorem rowFind_map_pair (k : Key) (g : Key × Row → Row) (l : List (Key × Row)) :
    rowFind k (l.map fun r => (r.1, g r)) =
      (l.find? fun r => decide (r.1 = k)).map g := by
  induction l with
  | nil => rfl
  | cons r t ih =>
    by_cases hr : r.1 = k <;> simp [rowFind, List.find?, hr, ih]

theorem rowFind_eq_find? (k : Key) (l : List (Key × Row)) :
    rowFind k l = (l.find? fun r => decide (r.1 = k)).map Prod.snd := by
  induction l with
  | nil => rfl
  | cons r t ih =>
    by_cases hr : r.1 = k <;> simp [rowFind, List.find?, hr, ih]

theorem rowFind_eq_none_iff (k : Key) (l : List (Key × Row)) :
    rowFind k l = none ↔ k ∉ l.map Prod.fst := by
  induction l with
  | nil => simp [rowFind]
  | cons r t ih =>
    by_cases hr : r.1 = k
    · simp [rowFind, hr]
    · simp [rowFind, hr, ih, Ne.symm hr]

theorem rowFind_mem (k : Key) (l : List (Key × Row)) (v : Row)
    (h : rowFind k l = some v) : (k, v) ∈ l := by
  induction l with
  | nil => simp [rowFind] at h
  | cons r t ih =>
    by_cases hr : r.1 = k
    · simp only [rowFind, hr, if_true, Option.some.injEq] at h
      subst h
      subst hr
      simp
    · simp only [rowFind, hr, if_false] at h
      exact List.mem_cons_of_mem _ (ih h)

theorem find?_filter_key (l : List (Key × Row)) (p : Key × Row → Bool)
    (q : Key → Bool) (hp : ∀ r, p r = q r.1) (k : Key) :
    ((l.filter p).find? fun r => decide (r.1 = k)) =
      if q k then l.find? fun r => decide (r.1 = k) else none := by
  induction l with
  | nil => simp [List.find?]
  | cons r t ih =>
    by_cases hpr : q r.1
    · by_cases hr : r.1 = k
      · subst hr
        simp [List.filter, hp r, hpr, List.find?]
      · simp [List.filter, hp r, hpr, List.find?, hr, ih]
    · by_cases hr : r.1 = k
      · subst hr
        simp only [Bool.not_eq_true] at hpr
        simp [List.filter, hp r, hpr, ih]
      · simp [List.filter, hp r, hpr, List.find?, hr, ih]


-- ---------------------------------------------------------------------------
-- Merge characterization
-- ---------------------------------------------------------------------------

/-- Keys appear at most once (true of every groupby output). -/
def NodupKeys (t : DF) : Prop := (t.rows.map Prod.fst).Nodup

/-- pandas-degenerate frames excluded: a frame has rows iff it has columns
(`pd.DataFrame()` has neither; a groupby output has both). -/
def EmptyConsistent (t : DF) : Prop := t.rows = [] ↔ t.vcols = []

/-- The shape invariants every per-domain feature frame satisfies. -/
def Good (t : DF) : Prop :=
  WF t ∧ NodupKeys t ∧ t.vcols.Nodup ∧ EmptyConsistent t

/-- No value column shared between two frames (true of the three per-domain
feature frames, whose columns carry distinct domain prefixes). -/
def DisjCols (t1 t2 : DF) : Prop := ∀ c ∈ t1.vcols, c ∉ t2.vcols

theorem DisjCols.symm {t1 t2 : DF} (h : DisjCols t1 t2) : DisjCols t2 t1 :=
  fun c hc hc1 => h c hc1 hc

/-- What one frame contributes to a merged cell: its own cell where it owns
the column (with a NaN filled in when the key is missing on its side),
nothing on columns it does not own. -/
def contrib (t : DF) (k : Key) (c : String) : Option (Option ℝ) :=
  if c ∈ t.vcols then some ((cell t k c).join) else none

theorem contrib_of_not_mem {t : DF} {c : String} (k : Key) (h : c ∉ t.vcols) :
    contrib t k c = none := by
  simp [contrib, h]

theorem cell_eq_contrib (t : DF) (hw : WF t) (k : Key) (c : String) :
    cell t k c = if hasKey t k then contrib t k c else none := by
  unfold cell hasKey contrib
  cases hf : rowFind k t.rows with
  | none => simp
  | some v =>
    have hv : v.map Prod.fst = t.vcols := hw _ (rowFind_mem k t.rows v hf)
    by_cases hc : c ∈ t.vcols
    · cases hg : colGet c v with
      | none =>
        have hs := colGet_isSome c v (hv.symm ▸ hc)
        rw [hg] at hs
        simp at hs
      | some w => simp [hc, cell, hf, hg]
    · have hc2 : c ∉ v.map Prod.fst := by rw [hv]; exact hc
      simp [hc, colGet_eq_none c v hc2]

theorem hasKey_outerMerge (t1 t2 : DF) (k : Key) :
    hasKey (outerMerge t1 t2) k = (hasKey t1 k || hasKey t2 k) := by
  unfold hasKey outerMerge
  simp only
  rw [rowFind_append, rowFind_map_pair, rowFind_map_pair,
    find?_filter_key t2.rows _ (fun x => !hasKey t1 x) (fun r => rfl) k]
  rw [rowFind_eq_find? k t1.rows, rowFind_eq_find? k t2.rows]
  cases hf1 : t1.rows.find? fun r => decide (r.1 = k) <;>
    cases hf2 : t2.rows.find? fun r => decide (r.1 = k) <;>
      simp [hasKey, rowFind_eq_find?, hf1, hf2]


theorem map_id_on {α : Type} (f : α → α) (l : List α) (h : ∀ a ∈ l, f a = a) :
    l.map f = l := by
  induction l with
  | nil => rfl
  | cons a t ih =>
    simp only [List.map_cons, List.cons.injEq]
    exact ⟨h a (by simp), ih fun x hx => h x (by simp [hx])⟩

theorem cell_outerMerge (t1 t2 : DF) (h1 : WF t1) (h2 : WF t2)
    (hd : DisjCols t1 t2) (k : Key) (c : String) :
    cell (outerMerge t1 t2) k c =
      if hasKey t1 k || hasKey t2 k then (contrib t1 k c).or (contrib t2 k c)
      else none := by
  have hx : ∀ s ∈ t1.vcols, sufX t2.vcols s = s := fun s hs => by
    simp [sufX, hd s hs]
  have hy : ∀ s ∈ t2.vcols, sufY t1.vcols s = s := fun s hs => by
    simp [sufY]
    intro hmem
    exact absurd hs (hd s hmem)
  have hmy : t2.vcols.map (sufY t1.vcols) = t2.vcols := map_id_on _ _ hy
  unfold cell outerMerge
  simp only
  rw [rowFind_append, rowFind_map_pair, rowFind_map_pair,
    find?_filter_key t2.rows _ (fun x => !hasKey t1 x) (fun r => rfl) k]
  cases hf1 : t1.rows.find? fun r => decide (r.1 = k) with
  | some r1 =>
    have hk1 : hasKey t1 k = true := by
      simp [hasKey, rowFind_eq_find?, hf1]
    have hkr : r1.1 = k := by
      have := List.find?_some hf1
      simpa using this
    have hmem1 : r1 ∈ t1.rows := List.mem_of_find?_eq_some hf1
    have hcols1 : r1.2.map Prod.fst = t1.vcols := h1 r1 hmem1
    have hren1 : rowRename (sufX t2.vcols) r1.2 = r1.2 :=
      rowRename_congr_id _ _ fun s hs => hx s (hcols1 ▸ hs)
    have hcell1 : cell t1 k c = colGet c r1.2 := by
      unfold cell
      rw [rowFind_eq_find?, hf1]
      rfl
    simp only [Option.map_some', hk1, Bool.not_true, Bool.false_eq_true, if_false,
      Option.map_none', Option.or_none, Bool.true_or, if_true, hren1, hkr,
      Option.some_bind]
    rw [colGet_append]
    by_cases hc1 : c ∈ t1.vcols
    · have hg1 := colGet_isSome c r1.2 (hcols1.symm ▸ hc1)
      cases hg : colGet c r1.2 with
      | none => rw [hg] at hg1; simp at hg1
      | some w => simp [contrib, hc1, hcell1, hg]
    · have hg1 : colGet c r1.2 = none :=
        colGet_eq_none c r1.2 (by rw [hcols1]; exact hc1)
      rw [hg1]
      simp only [Option.none_or, contrib_of_not_mem k hc1]
      cases hf2 : rowFind k t2.rows with
      | some v2 =>
        have hcols2 : v2.map Prod.fst = t2.vcols := h2 _ (rowFind_mem _ _ _ hf2)
        have hren2 : rowRename (sufY t1.vcols) v2 = v2 :=
          rowRename_congr_id _ _ fun s hs => hy s (hcols2 ▸ hs)
        have hcell2 : cell t2 k c = colGet c v2 := by
          unfold cell
          rw [hf2]
          rfl
        show colGet c (rowRename (sufY t1.vcols) v2) = contrib t2 k c
        rw [hren2]
        by_cases hc2 : c ∈ t2.vcols
        · have hg2 := colGet_isSome c v2 (hcols2.symm ▸ hc2)
          cases hg : colGet c v2 with
          | none => rw [hg] at hg2; simp at hg2
          | some w => simp [contrib, hc2, hcell2, hg]
        · have hg2 : colGet c v2 = none :=
            colGet_eq_none c v2 (by rw [hcols2]; exact hc2)
          simp [hg2, contrib_of_not_mem k hc2]
      | none =>
        have hcell2 : cell t2 k c = none := by
          unfold cell
          rw [hf2]
          rfl
        show colGet c (nanRow (List.map (sufY t1.vcols) t2.vcols)) = contrib t2 k c
        rw [hmy, colGet_nanRow]
        simp [contrib, hcell2]
  | none =>
    have hk1 : hasKey t1 k = false := by
      simp [hasKey, rowFind_eq_find?, hf1]
    have hcell1 : cell t1 k c = none := by
      unfold cell
      rw [rowFind_eq_find?, hf1]
      rfl
    simp only [Option.map_none', Option.none_or, hk1, Bool.not_false, if_true,
      Bool.false_or]
    cases hf2 : t2.rows.find? fun r => decide (r.1 = k) with
    | some r2 =>
      have hk2 : hasKey t2 k = true := by
        simp [hasKey, rowFind_eq_find?, hf2]
      have hmem2 : r2 ∈ t2.rows := List.mem_of_find?_eq_some hf2
      have hcols2 : r2.2.map Prod.fst = t2.vcols := h2 r2 hmem2
      have hren2 : rowRename (sufY t1.vcols) r2.2 = r2.2 :=
        rowRename_congr_id _ _ fun s hs => hy s (hcols2 ▸ hs)
      have hcell2 : cell t2 k c = colGet c r2.2 := by
        unfold cell
        rw [rowFind_eq_find?, hf2]
        rfl
      have hmx : t1.vcols.map (sufX t2.vcols) = t1.vcols := map_id_on _ _ hx
      simp only [Option.map_some', hk2, if_true, hren2, hmx, Option.some_bind]
      rw [colGet_append, colGet_nanRow]
      have hnan : contrib t1 k c = if c ∈ t1.vcols then some none else none := by
        simp [contrib, hcell1]
      rw [hnan]
      by_cases hc2 : c ∈ t2.vcols
      · have hg2 := colGet_isSome c r2.2 (hcols2.symm ▸ hc2)
        cases hg : colGet c r2.2 with
        | none => rw [hg] at hg2; simp at hg2
        | some w =>
          by_cases hc1 : c ∈ t1.vcols
          · exact absurd hc2 (hd c hc1)
          · simp [contrib, hc1, hc2, hcell2, hg]
      · have hg2 : colGet c r2.2 = none :=
          colGet_eq_none c r2.2 (by rw [hcols2]; exact hc2)
        by_cases hc1 : c ∈ t1.vcols <;>
          simp [hg2, contrib_of_not_mem k hc2, hc1]
    | none =>
      have hk2 : hasKey t2 k = false := by
        simp [hasKey, rowFind_eq_find?, hf2]
      simp [hk2]


theorem hasKey_iff_mem (t : DF) (k : Key) :
    hasKey t k = true ↔ k ∈ t.rows.map Prod.fst := by
  unfold hasKey
  cases hf : rowFind k t.rows with
  | none =>
    simp only [Option.isSome_none]
    exact iff_of_false (by simp) ((rowFind_eq_none_iff k t.rows).mp hf)
  | some v =>
    simp only [Option.isSome_some, true_iff]
    exact List.mem_map.mpr ⟨(k, v), rowFind_mem k t.rows v hf, rfl⟩

theorem good_empty_elim {m : DF} (hm : Good m) (he : isEmptyDF m = true) :
    m.rows = [] ∧ m.vcols = [] := by
  obtain ⟨-, -, -, hec⟩ := hm
  unfold isEmptyDF at he
  rcases Bool.or_eq_true_iff.mp he with h | h
  · have := List.isEmpty_iff.mp h
    exact ⟨this, hec.mp this⟩
  · have := List.isEmpty_iff.mp h
    exact ⟨hec.mpr this, this⟩

theorem not_empty_elim {m : DF} (he : isEmptyDF m = false) :
    m.rows ≠ [] ∧ m.vcols ≠ [] := by
  unfold isEmptyDF at he
  rcases Bool.or_eq_false_iff.mp he with ⟨h1, h2⟩
  exact ⟨fun h => by simp [h] at h1, fun h => by simp [h] at h2⟩

theorem vcols_outerMerge (t1 t2 : DF) (hd : DisjCols t1 t2) :
    (outerMerge t1 t2).vcols = t1.vcols ++ t2.vcols := by
  unfold outerMerge
  simp only
  rw [map_id_on _ _ fun s hs => by simp [sufX, hd s hs],
    map_id_on _ _ fun s hs => ?_]
  simp only [sufY]
  rw [if_neg fun hmem => hd s hmem hs]

theorem WF_outerMerge (t1 t2 : DF) (h1 : WF t1) (h2 : WF t2)
    (hd : DisjCols t1 t2) : WF (outerMerge t1 t2) := by
  have hx : ∀ s ∈ t1.vcols, sufX t2.vcols s = s := fun s hs => by
    simp [sufX, hd s hs]
  have hy : ∀ s ∈ t2.vcols, sufY t1.vcols s = s := fun s hs => by
    simp only [sufY]
    rw [if_neg fun hmem => hd s hmem hs]
  have hmx : t1.vcols.map (sufX t2.vcols) = t1.vcols := map_id_on _ _ hx
  have hmy : t2.vcols.map (sufY t1.vcols) = t2.vcols := map_id_on _ _ hy
  intro r hr
  rw [vcols_outerMerge t1 t2 hd]
  unfold outerMerge at hr
  simp only [List.mem_append, List.mem_map] at hr
  rcases hr with ⟨r0, hr0, hre⟩ | ⟨r0, hr0, hre⟩
  · subst hre
    simp only [List.map_append, rowRename_fst, h1 r0 hr0, hmx,
      List.append_cancel_left_eq]
    cases hf : rowFind r0.1 t2.rows with
    | some w =>
      simp only [rowRename_fst, h2 _ (rowFind_mem _ _ _ hf), hmy]
    | none =>
      simp only [nanRow_fst, hmy]
  · have hr0' : r0 ∈ t2.rows := List.mem_of_mem_filter hr0
    subst hre
    simp only [List.map_append, rowRename_fst, nanRow_fst, hmx,
      h2 r0 hr0', hmy]

theorem map_fst_keyed (g : Key × Row → Row) (l : List (Key × Row)) :
    ((l.map fun r => (r.1, g r)).map Prod.fst) = l.map Prod.fst := by
  rw [List.map_map]
  rfl

theorem NodupKeys_outerMerge (t1 t2 : DF) (hn1 : NodupKeys t1)
    (hn2 : NodupKeys t2) : NodupKeys (outerMerge t1 t2) := by
  unfold NodupKeys at *
  unfold outerMerge
  simp only [List.map_append]
  rw [map_fst_keyed, map_fst_keyed, List.nodup_append]
  refine ⟨hn1, hn2.sublist (List.Sublist.map _ (List.filter_sublist _)), ?_⟩
  intro a ha hb
  obtain ⟨r, hrmem, hfst⟩ := List.mem_map.mp hb
  have hfil := List.of_mem_filter hrmem
  have hk : hasKey t1 a = true := (hasKey_iff_mem t1 a).mpr ha
  rw [← hfst] at hk
  rw [hk] at hfil
  simp at hfil

theorem EC_outerMerge (t1 t2 : DF) (h1r : t1.rows ≠ []) (h1c : t1.vcols ≠ []) :
    EmptyConsistent (outerMerge t1 t2) := by
  unfold EmptyConsistent outerMerge
  simp only
  refine iff_of_false ?_ ?_
  · intro h
    rcases List.append_eq_nil.mp h with ⟨hA, -⟩
    exact h1r (List.map_eq_nil_iff.mp hA)
  · intro h
    rcases List.append_eq_nil.mp h with ⟨hA, -⟩
    exact h1c (List.map_eq_nil_iff.mp hA)

theorem Good_outerMerge (t1 t2 : DF) (h1 : Good t1) (h2 : Good t2)
    (hd : DisjCols t1 t2) (h1e : isEmptyDF t1 = false) :
    Good (outerMerge t1 t2) := by
  obtain ⟨hw1, hn1, hc1, -⟩ := h1
  obtain ⟨hw2, hn2, hc2, -⟩ := h2
  obtain ⟨h1r, h1c⟩ := not_empty_elim h1e
  refine ⟨WF_outerMerge t1 t2 hw1 hw2 hd, NodupKeys_outerMerge t1 t2 hn1 hn2,
    ?_, EC_outerMerge t1 t2 h1r h1c⟩
  rw [vcols_outerMerge t1 t2 hd, List.nodup_append]
  exact ⟨hc1, hc2, fun a ha hb => hd a ha hb⟩

theorem mergeStep_spec (m t : DF) (hm : Good m) (ht : Good t)
    (hd : DisjCols m t) :
    Good (mergeStep m t) ∧ (mergeStep m t).vcols = m.vcols ++ t.vcols ∧
    (∀ k, hasKey (mergeStep m t) k = (hasKey m k || hasKey t k)) ∧
    (∀ k c, cell (mergeStep m t) k c =
      if hasKey m k || hasKey t k then (contrib m k c).or (contrib t k c)
      else none) := by
  unfold mergeStep
  by_cases hme : isEmptyDF m = true
  · obtain ⟨hmr, hmc⟩ := good_empty_elim hm hme
    have hkm : ∀ k, hasKey m k = false := fun k => by
      simp [hasKey, hmr, rowFind]
    have hcm : ∀ k c, contrib m k c = none := fun k c =>
      contrib_of_not_mem k (by simp [hmc])
    simp only [hme, if_true]
    refine ⟨ht, by rw [hmc]; rfl, fun k => by simp [hkm k], fun k c => ?_⟩
    rw [hkm k, hcm k c, Bool.false_or, Option.none_or,
      cell_eq_contrib t ht.1 k c]
  · simp only [hme]
    rw [Bool.not_eq_true] at hme
    simp only [hme, Bool.false_eq_true, if_false]
    by_cases hte : isEmptyDF t = true
    · obtain ⟨htr, htc⟩ := good_empty_elim ht hte
      have hkt : ∀ k, hasKey t k = false := fun k => by
        simp [hasKey, htr, rowFind]
      have hct : ∀ k c, contrib t k c = none := fun k c =>
        contrib_of_not_mem k (by simp [htc])
      simp only [hte, if_true]
      refine ⟨hm, by rw [htc]; simp, fun k => by simp [hkt k], fun k c => ?_⟩
      rw [hkt k, hct k c]
      simp only [Bool.or_false, Option.or_none]
      exact cell_eq_contrib m hm.1 k c
    · simp only [hte, Bool.false_eq_true, if_false]
      rw [Bool.not_eq_true] at hte
      exact ⟨Good_outerMerge m t hm ht hd hme,
        vcols_outerMerge m t hd,
        hasKey_outerMerge m t,
        cell_outerMerge m t hm.1 ht.1 hd⟩




theorem contrib_of_mem {t : DF} {c : String} (k : Key) (h : c ∈ t.vcols) :
    contrib t k c = some ((cell t k c).join) := by
  simp [contrib, h]

theorem cell_of_hasKey_false {t : DF} {k : Key} (c : String)
    (h : hasKey t k = false) : cell t k c = none := by
  unfold hasKey at h
  unfold cell
  cases hf : rowFind k t.rows with
  | none => rfl
  | some v => rw [hf] at h; simp at h

theorem contrib_mergeStep (m t : DF) (hm : Good m) (ht : Good t)
    (hd : DisjCols m t) (k : Key) (c : String) :
    contrib (mergeStep m t) k c = (contrib m k c).or (contrib t k c) := by
  obtain ⟨hg, hv, hk, hc⟩ := mergeStep_spec m t hm ht hd
  by_cases hcm : c ∈ m.vcols
  · have hct : c ∉ t.vcols := hd c hcm
    have hmem : c ∈ (mergeStep m t).vcols := by
      rw [hv]
      exact List.mem_append.mpr (Or.inl hcm)
    rw [contrib_of_mem k hmem, hc k c, contrib_of_not_mem k hct,
      Option.or_none]
    cases hb : (hasKey m k || hasKey t k)
    · have hkm : hasKey m k = false := by
        cases hq : hasKey m k
        · rfl
        · rw [hq] at hb; simp at hb
      simp [contrib_of_mem k hcm, cell_of_hasKey_false c hkm]
    · simp [contrib_of_mem k hcm]
  · by_cases hct : c ∈ t.vcols
    · have hmem : c ∈ (mergeStep m t).vcols := by
        rw [hv]
        exact List.mem_append.mpr (Or.inr hct)
      rw [contrib_of_mem k hmem, hc k c, contrib_of_not_mem k hcm,
        Option.none_or]
      cases hb : (hasKey m k || hasKey t k)
      · have hkt : hasKey t k = false := by
          cases hq : hasKey t k
          · rfl
          · rw [hq] at hb; simp at hb
        simp [contrib_of_mem k hct, cell_of_hasKey_false c hkt]
      · simp [contrib_of_mem k hct]
    · have hmem : c ∉ (mergeStep m t).vcols := by
        rw [hv]
        exact fun hx => (List.mem_append.mp hx).elim hcm hct
      rw [contrib_of_not_mem k hmem, contrib_of_not_mem k hcm,
        contrib_of_not_mem k hct]
      rfl

theorem hasKey_fillna0 (t : DF) (k : Key) :
    hasKey (fillna0 t) k = hasKey t k := by
  unfold hasKey fillna0
  simp only
  rw [rowFind_map_snd]
  cases rowFind k t.rows <;> simp

theorem mergeDomains_spec (e b d : DF) (hge : Good e) (hgb : Good b)
    (hgd : Good d) (heb : DisjCols e b) (hed : DisjCols e d)
    (hbd : DisjCols b d) :
    (∀ k, hasKey (mergeDomains e b d) k =
      (hasKey e k || (hasKey b k || hasKey d k))) ∧
    ((mergeDomains e b d).vcols = (e.vcols ++ b.vcols) ++ d.vcols) ∧
    (∀ k c, cell (mergeDomains e b d) k c =
      if hasKey e k || (hasKey b k || hasKey d k) then
        (((contrib e k c).or (contrib b k c)).or (contrib d k c)).map
          (fun w => some (w.getD 0))
      else none) := by
  obtain ⟨hg1, hv1, hk1, hc1⟩ := mergeStep_spec e b hge hgb heb
  have hdisj2 : DisjCols (mergeStep e b) d := by
    intro c hc
    rw [hv1] at hc
    rcases List.mem_append.mp hc with h | h
    exacts [hed c h, hbd c h]
  obtain ⟨hg2, hv2, hk2, hc2⟩ := mergeStep_spec (mergeStep e b) d hg1 hgd hdisj2
  refine ⟨fun k => ?_, ?_, fun k c => ?_⟩
  · unfold mergeDomains
    rw [hasKey_fillna0, hk2, hk1, Bool.or_assoc]
  · show (mergeStep (mergeStep e b) d).vcols = (e.vcols ++ b.vcols) ++ d.vcols
    rw [hv2, hv1]
  · unfold mergeDomains
    rw [cell_fillna0, hc2 k c, hk1 k, contrib_mergeStep e b hge hgb heb k c,
      Bool.or_assoc]
    cases (hasKey e k || (hasKey b k || hasKey d k)) <;> simp

theorem bool_or3_perm (a b c : Bool) :
    ((a || (b || c)) = (a || (c || b))) ∧ ((a || (b || c)) = (b || (a || c))) ∧
    ((a || (b || c)) = (b || (c || a))) ∧ ((a || (b || c)) = (c || (a || b))) ∧
    ((a || (b || c)) = (c || (b || a))) := by
  cases a <;> cases b <;> cases c <;> simp

theorem contrib_or3_perm (e b d : DF) (heb : DisjCols e b) (hed : DisjCols e d)
    (hbd : DisjCols b d) (k : Key) (c : String) :
    ((((contrib e k c).or (contrib b k c)).or (contrib d k c)) =
      (((contrib e k c).or (contrib d k c)).or (contrib b k c))) ∧
    ((((contrib e k c).or (contrib b k c)).or (contrib d k c)) =
      (((contrib b k c).or (contrib e k c)).or (contrib d k c))) ∧
    ((((contrib e k c).or (contrib b k c)).or (contrib d k c)) =
      (((contrib b k c).or (contrib d k c)).or (contrib e k c))) ∧
    ((((contrib e k c).or (contrib b k c)).or (contrib d k c)) =
      (((contrib d k c).or (contrib e k c)).or (contrib b k c))) ∧
    ((((contrib e k c).or (contrib b k c)).or (contrib d k c)) =
      (((contrib d k c).or (contrib b k c)).or (contrib e k c))) := by
  by_cases h1 : c ∈ e.vcols <;> by_cases h2 : c ∈ b.vcols <;>
    by_cases h3 : c ∈ d.vcols
  · exact absurd h2 (heb c h1)
  · exact absurd h2 (heb c h1)
  · exact absurd h3 (hed c h1)
  · simp [contrib_of_not_mem k h2, contrib_of_not_mem k h3]
  · exact absurd h3 (hbd c h2)
  · simp [contrib_of_not_mem k h1, contrib_of_not_mem k h3]
  · simp [contrib_of_not_mem k h1, contrib_of_not_mem k h2]
  · simp [contrib_of_not_mem k h1, contrib_of_not_mem k h2,
      contrib_of_not_mem k h3]

/-- Two frames agree as tables: same keys, same value columns (as sets),
and the same cell at every key and column. -/
def contentEq (t1 t2 : DF) : Prop :=
  (∀ k, hasKey t1 k = hasKey t2 k) ∧
  (∀ c, c ∈ t1.vcols ↔ c ∈ t2.vcols) ∧
  (∀ k c, cell t1 k c = cell t2 k c)


/-- C3 (amended): for well-formed per-domain feature frames with unique keys
and pairwise disjoint value columns, the zero-filled merged table is the
same regardless of the order in which the three frames are merged — same
keys, same columns, same cell at every key and column.  (Re-merging the
output with itself is NOT the identity: pandas suffixes the duplicated
value columns, see the counterexample.) -/
theorem mergeDomains_comm (e b d : DF) (hge : Good e) (hgb : Good b)
    (hgd : Good d) (heb : DisjCols e b) (hed : DisjCols e d)
    (hbd : DisjCols b d) :
    contentEq (mergeDomains e b d) (mergeDomains e d b) ∧
    contentEq (mergeDomains e b d) (mergeDomains b e d) ∧
    contentEq (mergeDomains e b d) (mergeDomains b d e) ∧
    contentEq (mergeDomains e b d) (mergeDomains d e b) ∧
    contentEq (mergeDomains e b d) (mergeDomains d b e) := by
  obtain ⟨hK, hV, hC⟩ := mergeDomains_spec e b d hge hgb hgd heb hed hbd
  obtain ⟨hK1, hV1, hC1⟩ := mergeDomains_spec e d b hge hgd hgb hed heb hbd.symm
  obtain ⟨hK2, hV2, hC2⟩ := mergeDomains_spec b e d hgb hge hgd heb.symm hbd hed
  obtain ⟨hK3, hV3, hC3⟩ := mergeDomains_spec b d e hgb hgd hge hbd heb.symm hed.symm
  obtain ⟨hK4, hV4, hC4⟩ := mergeDomains_spec d e b hgd hge hgb hed.symm hbd.symm heb
  obtain ⟨hK5, hV5, hC5⟩ := mergeDomains_spec d b e hgd hgb hge hbd.symm hed.symm heb.symm
  refine ⟨⟨fun k => ?_, fun c => ?_, fun k c => ?_⟩,
    ⟨fun k => ?_, fun c => ?_, fun k c => ?_⟩,
    ⟨fun k => ?_, fun c => ?_, fun k c => ?_⟩,
    ⟨fun k => ?_, fun c => ?_, fun k c => ?_⟩,
    ⟨fun k => ?_, fun c => ?_, fun k c => ?_⟩⟩
  · rw [hK k, hK1 k, (bool_or3_perm (hasKey e k) (hasKey b k) (hasKey d k)).1]
  · rw [hV, hV1]
    simp only [List.mem_append]
    tauto
  · rw [hC k c, hC1 k c, (bool_or3_perm (hasKey e k) (hasKey b k) (hasKey d k)).1,
      (contrib_or3_perm e b d heb hed hbd k c).1]
  · rw [hK k, hK2 k, (bool_or3_perm (hasKey e k) (hasKey b k) (hasKey d k)).2.1]
  · rw [hV, hV2]
    simp only [List.mem_append]
    tauto
  · rw [hC k c, hC2 k c, (bool_or3_perm (hasKey e k) (hasKey b k) (hasKey d k)).2.1,
      (contrib_or3_perm e b d heb hed hbd k c).2.1]
  · rw [hK k, hK3 k, (bool_or3_perm (hasKey e k) (hasKey b k) (hasKey d k)).2.2.1]
  · rw [hV, hV3]
    simp only [List.mem_append]
    tauto
  · rw [hC k c, hC3 k c, (bool_or3_perm (hasKey e k) (hasKey b k) (hasKey d k)).2.2.1,
      (contrib_or3_perm e b d heb hed hbd k c).2.2.1]
  · rw [hK k, hK4 k, (bool_or3_perm (hasKey e k) (hasKey b k) (hasKey d k)).2.2.2.1]
  · rw [hV, hV4]
    simp only [List.mem_append]
    tauto
  · rw [hC k c, hC4 k c, (bool_or3_perm (hasKey e k) (hasKey b k) (hasKey d k)).2.2.2.1,
      (contrib_or3_perm e b d heb hed hbd k c).2.2.2.1]
  · rw [hK k, hK5 k, (bool_or3_perm (hasKey e k) (hasKey b k) (hasKey d k)).2.2.2.2]
  · rw [hV, hV5]
    simp only [List.mem_append]
    tauto
  · rw [hC k c, hC5 k c, (bool_or3_perm (hasKey e k) (hasKey b k) (hasKey d k)).2.2.2.2,
      (contrib_or3_perm e b d heb hed hbd k c).2.2.2.2]

/-- One-column, one-row frame used to exhibit the failure of merge
idempotence. -/
def oneColDF : DF := ⟨["a"], [(("A", "B", 1), [("a", some 1)])]⟩

/-- C3 counterexample: outer-joining the Domain Merger's own output with
itself on the spatial keys does change it — pandas suffixes the duplicated
value column `a` into `a_x` and `a_y`. -/
theorem mergeDomains_not_idempotent :
    outerMerge (mergeDomains oneColDF emptyDF emptyDF)
        (mergeDomains oneColDF emptyDF emptyDF) ≠
      mergeDomains oneColDF emptyDF emptyDF := by
  intro h
  exact absurd (congrArg DF.vcols h) (by decide)

theorem disjCols_of (t1 t2 : DF) (h : ∀ c ∈ t1.vcols, c ∉ t2.vcols) :
    DisjCols t1 t2 := h

theorem good_of (t : DF) (h1 : ∀ r ∈ t.rows, r.2.map Prod.fst = t.vcols)
    (h2 : (t.rows.map Prod.fst).Nodup) (h3 : t.vcols.Nodup)
    (h4 : t.rows.isEmpty = t.vcols.isEmpty) : Good t := by
  refine ⟨h1, h2, h3, ?_⟩
  unfold EmptyConsistent
  constructor
  · intro h
    rw [← List.isEmpty_iff, ← h4, h]
    rfl
  · intro h
    rw [← List.isEmpty_iff, h4, h]
    rfl

/-- C3 witness: merge-order independence applied to concrete frames. -/
theorem mergeDomains_comm_witness :
    contentEq (mergeDomains oneColDF ⟨["b"], [(("A", "B", 2), [("b", some 2)])]⟩ emptyDF)
      (mergeDomains ⟨["b"], [(("A", "B", 2), [("b", some 2)])]⟩ oneColDF emptyDF) :=
  (mergeDomains_comm oneColDF ⟨["b"], [(("A", "B", 2), [("b", some 2)])]⟩ emptyDF
    (good_of _ (by decide) (by decide) (by decide) (by decide))
    (good_of _ (by decide) (by decide) (by decide) (by decide))
    (good_of _ (by decide) (by decide) (by decide) (by decide))
    (disjCols_of _ _ (by decide)) (disjCols_of _ _ (by decide))
    (disjCols_of _ _ (by decide))).2.1


-- ---------------------------------------------------------------------------
-- analyze_pincode_variance: in-place total_load column (C10)
-- ---------------------------------------------------------------------------

/-- pandas addition of two cells: NaN propagates. -/
def cellAdd (a b : Option ℝ) : Option ℝ :=
  match a, b with
  | some x, some y => some (x + y)
  | _, _ => none

/-- The total operational load of one merged pincode row:
`enrol_total_vol + bio_total_vol + demo_total_vol` (line 341). -/
def totalLoadOf (v : Row) : Option ℝ :=
  cellAdd (cellAdd ((colGet "enrol_total_vol" v).join)
    ((colGet "bio_total_vol" v).join)) ((colGet "demo_total_vol" v).join)

/-- pandas `df[name] = ...` on one row: replace the first cell carrying the
name in place, or append the new column cell at the end. -/
def setRowCol (name : String) (x : Option ℝ) : Row → Row
  | [] => [(name, x)]
  | p :: v => if p.1 = name then (name, x) :: v else p :: setRowCol name x v

/-- pandas column assignment `df[name] = f(row)` applied to a whole frame,
mutating the caller's object in place. -/
def setCol (name : String) (f : Row → Option ℝ) (t : DF) : DF :=
  { vcols := if name ∈ t.vcols then t.vcols else t.vcols ++ [name],
    rows := t.rows.map fun r => (r.1, setRowCol name (f r.2) r.2) }

/-- The state of the caller's merged pincode frame after
`analyze_pincode_variance(df)` returns: the only mutation of `df` is the
`total_load` column assignment on line 341 (the district subset is taken
with `.copy()` and sorted separately). -/
def analyze_pincode_variance_effect (t : DF) : DF :=
  setCol "total_load" totalLoadOf t

theorem colGet_setRowCol_ne (c name : String) (x : Option ℝ) (v : Row)
    (h : c ≠ name) : colGet c (setRowCol name x v) = colGet c v := by
  have h2 : ¬ name = c := fun hx => h hx.symm
  induction v with
  | nil => simp [setRowCol, colGet, h2]
  | cons p t ih =>
    by_cases hp : p.1 = name
    · have hpc : ¬ p.1 = c := by rw [hp]; exact h2
      simp [setRowCol, hp, colGet, h2, hpc]
    · by_cases hc : p.1 = c <;> simp [setRowCol, hp, colGet, hc, ih, h]

theorem rowFind_setCol (name : String) (f : Row → Option ℝ) (k : Key)
    (l : List (Key × Row)) :
    rowFind k (l.map fun r => (r.1, setRowCol name (f r.2) r.2)) =
      (rowFind k l).map fun v => setRowCol name (f v) v := by
  induction l with
  | nil => rfl
  | cons r t ih =>
    by_cases hr : r.1 = k <;> simp [rowFind, hr, ih]

theorem colGet_setRowCol_self (name : String) (x : Option ℝ) (v : Row) :
    colGet name (setRowCol name x v) = some x := by
  induction v with
  | nil => simp [setRowCol, colGet]
  | cons p t ih =>
    by_cases hp : p.1 = name <;> simp [setRowCol, hp, colGet, ih]

/-- C10: `analyze_pincode_variance` mutates the merged frame passed to it:
after the call the caller's frame has the extra `total_load` column holding
`enrol_total_vol + bio_total_vol + demo_total_vol` per row, the key set is
unchanged, and every pre-existing column holds its old cells. -/
theorem analyze_pincode_variance_mutates (t : DF)
    (hnew : "total_load" ∉ t.vcols) :
    (analyze_pincode_variance_effect t).vcols = t.vcols ++ ["total_load"] ∧
    (∀ k, hasKey (analyze_pincode_variance_effect t) k = hasKey t k) ∧
    (∀ k c, c ∈ t.vcols →
      cell (analyze_pincode_variance_effect t) k c = cell t k c) ∧
    (∀ k v, rowFind k t.rows = some v →
      cell (analyze_pincode_variance_effect t) k "total_load" =
        some (totalLoadOf v)) := by
  refine ⟨by simp [analyze_pincode_variance_effect, setCol, hnew], fun k => ?_,
    fun k c hc => ?_, fun k v hv => ?_⟩
  · unfold analyze_pincode_variance_effect setCol hasKey
    simp only
    rw [rowFind_setCol]
    cases rowFind k t.rows <;> simp
  · unfold analyze_pincode_variance_effect setCol cell
    simp only
    rw [rowFind_setCol]
    cases hf : rowFind k t.rows with
    | none => rfl
    | some v =>
      simp only [Option.map_some', Option.some_bind]
      exact colGet_setRowCol_ne c "total_load" (totalLoadOf v) v
        fun hx => hnew (hx ▸ hc)
  · unfold analyze_pincode_variance_effect setCol cell
    simp only
    rw [rowFind_setCol, hv]
    simp only [Option.map_some', Option.some_bind]
    exact colGet_setRowCol_self "total_load" (totalLoadOf v) v

/-- C10 witness: the mutation theorem applied to a concrete merged frame. -/
theorem analyze_pincode_variance_mutates_witness :
    cell (analyze_pincode_variance_effect oneColDF) ("A", "B", 1) "a" =
      cell oneColDF ("A", "B", 1) "a" :=
  (analyze_pincode_variance_mutates oneColDF (by decide)).2.2.1
    ("A", "B", 1) "a" (by decide)


-- ---------------------------------------------------------------------------
-- Statistical aggregates (pandas sum / mean / std with ddof = 1)
-- ---------------------------------------------------------------------------

/-- pandas `mean` of a series. -/
noncomputable def meanR (l : List ℝ) : ℝ := l.sum / l.length

/-- pandas `var` (ddof = 1): sum of squared deviations over `n - 1`. -/
noncomputable def sampleVar (l : List ℝ) : ℝ :=
  ((l.map fun x => (x - meanR l) ^ 2).sum) / ((l.length : ℝ) - 1)

/-- pandas `std` (ddof = 1): NaN on fewer than two observations, otherwise
the square root of the sample variance. -/
noncomputable def sampleStd (l : List ℝ) : Option ℝ :=
  if l.length ≤ 1 then none else some (Real.sqrt (sampleVar l))

theorem sampleStd_nonneg {l : List ℝ} {x : ℝ} (h : sampleStd l = some x) :
    0 ≤ x := by
  unfold sampleStd at h
  by_cases hl : l.length ≤ 1
  · rw [if_pos hl] at h
    exact absurd h (by simp)
  · rw [if_neg hl] at h
    obtain rfl : Real.sqrt (sampleVar l) = x := by
      exact Option.some.injEq _ _ ▸ h
    exact Real.sqrt_nonneg _

-- ---------------------------------------------------------------------------
-- process_domain_features (lines 94-120): the Pincode Feature Builder
-- ---------------------------------------------------------------------------

/-- A normalized per-domain activity table: one record per (key, date) with
named numeric value columns (the age-bracket counters). -/
def InTable : Type := List (Key × List (String × ℝ))

/-- Column access on one raw record. -/
def getVal (c : String) : List (String × ℝ) → Option ℝ
  | [] => none
  | p :: v => if p.1 = c then some p.2 else getVal c v

/-- The groupby keys, in first-appearance order (pandas sorts group keys;
every aggregate below depends only on the key set, not its order). -/
def groupKeys (df : InTable) : List Key := (df.map Prod.fst).dedup

/-- The series of values of column `c` inside the group of key `k`. -/
def groupVals (df : InTable) (k : Key) (c : String) : List ℝ :=
  (df.filter fun r => r.1 = k).filterMap fun r => getVal c r.2

/-- The groupby `sum` aggregate of column `c` at key `k`. -/
noncomputable def sumAgg (df : InTable) (k : Key) (c : String) : ℝ :=
  (groupVals df k c).sum

/-- The key columns of the flattened groupby output (line 106). -/
def keyCols : List String := ["state", "district", "pincode"]

/-- The Python substring test `'sum' in c`. -/
def containsSum (n : String) : Bool := decide ("sum".toList <:+: n.toList)

/-- The Python substring test `'std' in c`. -/
def containsStd (n : String) : Bool := decide ("std".toList <:+: n.toList)

/-- The flattened statistic column names `{c}_{stat}` of line 106. -/
def statNames : List String → List String
  | [] => []
  | c :: rest => (c ++ "_sum") :: (c ++ "_std") :: statNames rest

/-- The flattened statistic cells of one output row (line 103): sum and
std per value column. -/
noncomputable def statCells (df : InTable) (k : Key) : List String → Row
  | [] => []
  | c :: rest =>
    (c ++ "_sum", some (sumAgg df k c)) ::
      (c ++ "_std", sampleStd (groupVals df k c)) :: statCells df k rest

/-- Line 109-110: `{prefix}_total_vol` is the row-wise skip-NaN sum over the
columns whose name contains `'sum'`. -/
noncomputable def totalVolVal (df : InTable) (valCols : List String) (k : Key) : ℝ :=
  (((keyCols ++ statNames valCols).filter containsSum).filterMap
    (fun n => (colGet n (statCells df k valCols)).join)).sum

/-- The row after line 110: statistic cells plus the total-volume cell. -/
noncomputable def volRow (pfx : String) (df : InTable) (valCols : List String)
    (k : Key) : Row :=
  statCells df k valCols ++ [(pfx ++ "_total_vol", some (totalVolVal df valCols k))]

/-- Lines 114-115: the row-wise skip-NaN sum over the columns whose name
contains `'std'` (computed after `total_vol` was appended). -/
noncomputable def totalStdVal (pfx : String) (df : InTable) (valCols : List String)
    (k : Key) : ℝ :=
  ((((keyCols ++ statNames valCols) ++ [pfx ++ "_total_vol"]).filter containsStd).filterMap
    (fun n => (colGet n (volRow pfx df valCols k)).join)).sum

/-- Lines 117-119: damped inverse coefficient of variation, 0 where the
total volume is not positive. -/
noncomputable def stabilityVal (pfx : String) (df : InTable) (valCols : List String)
    (k : Key) : ℝ :=
  if 0 < totalVolVal df valCols k then
    1 / ((totalStdVal pfx df valCols k / (totalVolVal df valCols k + 1)) + 0.1)
  else 0

/-- The Pincode Feature Builder (lines 94-120): empty in, empty out;
otherwise one row per (state, district, pincode) group carrying the
flattened sum/std statistics, the domain total volume and the domain
stability. -/
noncomputable def process_domain_features (pfx : String) (valCols : List String)
    (df : InTable) : DF :=
  if df.isEmpty then emptyDF
  else
    { vcols := statNames valCols ++ [pfx ++ "_total_vol", pfx ++ "_stability"],
      rows := (groupKeys df).map fun k =>
        (k, volRow pfx df valCols k ++
          [(pfx ++ "_stability", some (stabilityVal pfx df valCols k))]) }

theorem statCells_fst (df : InTable) (k : Key) (valCols : List String) :
    (statCells df k valCols).map Prod.fst = statNames valCols := by
  induction valCols with
  | nil => rfl
  | cons c rest ih => simp [statCells, statNames, ih]

theorem rowFind_groupRows (f : Key → Row) (keys : List Key) (k : Key)
    (h : k ∈ keys) :
    rowFind k (keys.map fun x => (x, f x)) = some (f k) := by
  induction keys with
  | nil => simp at h
  | cons a t ih =>
    by_cases ha : a = k
    · subst ha
      simp [rowFind]
    · have : k ∈ t := by
        rcases List.mem_cons.mp h with hx | hx
        · exact absurd hx.symm ha
        · exact hx
      simp [rowFind, ha, ih this]


theorem containsSum_sum (c : String) : containsSum (c ++ "_sum") = true := by
  unfold containsSum
  rw [decide_eq_true_eq]
  show "sum".toList <:+: (c ++ "_sum").data
  rw [String.data_append]
  exact List.IsInfix.trans (by decide) (List.suffix_append _ _).isInfix

theorem containsStd_std (c : String) : containsStd (c ++ "_std") = true := by
  unfold containsStd
  rw [decide_eq_true_eq]
  show "std".toList <:+: (c ++ "_std").data
  rw [String.data_append]
  exact List.IsInfix.trans (by decide) (List.suffix_append _ _).isInfix

theorem colGet_mem {c : String} {v : Row} {y : Option ℝ}
    (h : colGet c v = some y) : (c, y) ∈ v := by
  induction v with
  | nil => simp [colGet] at h
  | cons p t ih =>
    by_cases hp : p.1 = c
    · rw [colGet, if_pos hp] at h
      obtain rfl : p.2 = y := by simpa using h
      obtain ⟨a, x⟩ := p
      obtain rfl : a = c := hp
      exact List.mem_cons_self _ _
    · rw [colGet, if_neg hp] at h
      exact List.mem_cons_of_mem _ (ih h)

theorem statCells_shape {df : InTable} {k : Key} {valCols : List String}
    {p : String × Option ℝ} (h : p ∈ statCells df k valCols) :
    ∃ c, c ∈ valCols ∧
      (p = (c ++ "_sum", some (sumAgg df k c)) ∨
       p = (c ++ "_std", sampleStd (groupVals df k c))) := by
  induction valCols with
  | nil => simp [statCells] at h
  | cons c rest ih =>
    rcases List.mem_cons.mp h with hp | hp
    · exact ⟨c, by simp, Or.inl hp⟩
    · rcases List.mem_cons.mp hp with hq | hq
      · exact ⟨c, by simp, Or.inr hq⟩
      · obtain ⟨c2, hc2, hor⟩ := ih hq
        exact ⟨c2, by simp [hc2], hor⟩

theorem filterMap_cons_some {α β : Type} (f : α → Option β) (a : α)
    (l : List α) {b : β} (h : f a = some b) :
    (a :: l).filterMap f = b :: l.filterMap f := by
  simp [List.filterMap_cons, h]

theorem totalVol_aux (df : InTable) (k : Key) (valCols : List String)
    (hnd : (statNames valCols).Nodup)
    (hstd : ∀ c ∈ valCols, containsSum (c ++ "_std") = false) :
    (((statNames valCols).filter containsSum).filterMap
      (fun n => (colGet n (statCells df k valCols)).join)).sum =
      (valCols.map fun c => sumAgg df k c).sum := by
  induction valCols with
  | nil => simp [statNames, statCells]
  | cons c rest ih =>
    have hnd1 : (c ++ "_sum") ∉ (c ++ "_std") :: statNames rest :=
      (List.nodup_cons.mp hnd).1
    have hnd2 : (c ++ "_std") ∉ statNames rest :=
      (List.nodup_cons.mp (List.nodup_cons.mp hnd).2).1
    have hndr : (statNames rest).Nodup :=
      (List.nodup_cons.mp (List.nodup_cons.mp hnd).2).2
    have hsum1 : (c ++ "_sum") ∉ statNames rest := fun hx =>
      hnd1 (List.mem_cons_of_mem _ hx)
    rw [statNames, List.filter_cons_of_pos (containsSum_sum c),
      List.filter_cons_of_neg (by simp [hstd c (by simp)])]
    have hhead : colGet (c ++ "_sum") (statCells df k (c :: rest)) =
        some (some (sumAgg df k c)) := by
      simp [statCells, colGet]
    rw [filterMap_cons_some _ _ _ (by rw [hhead]; rfl)]
    have htail : ((statNames rest).filter containsSum).filterMap
        (fun n => (colGet n (statCells df k (c :: rest))).join) =
        ((statNames rest).filter containsSum).filterMap
        (fun n => (colGet n (statCells df k rest)).join) := by
      apply List.filterMap_congr
      intro n hn
      have hnr : n ∈ statNames rest := List.mem_of_mem_filter hn
      have hne1 : ¬((c ++ "_sum") = n) := fun hx => hsum1 (hx ▸ hnr)
      have hne2 : ¬((c ++ "_std") = n) := fun hx => hnd2 (hx ▸ hnr)
      simp [statCells, colGet, hne1, hne2]
    rw [htail, List.sum_cons, ih hndr fun x hx => hstd x (by simp [hx]),
      List.map_cons, List.sum_cons]


theorem volRow_fst (pfx : String) (df : InTable) (valCols : List String) (k : Key) :
    (volRow pfx df valCols k).map Prod.fst =
      statNames valCols ++ [pfx ++ "_total_vol"] := by
  simp [volRow, statCells_fst]

/-- C8: in every row of the Pincode Feature Builder output,
`{domain}_total_vol` is the sum of the row's per-value-column sum columns
(the name hypotheses say that no generated `_std` statistic name spuriously
contains the substring `sum`, which holds for the pipeline's column sets). -/
theorem process_total_vol (pfx : String) (valCols : List String) (df : InTable)
    (hne : df ≠ []) (k : Key) (hk : k ∈ groupKeys df)
    (hnd : (statNames valCols).Nodup)
    (hstd : ∀ c ∈ valCols, containsSum (c ++ "_std") = false)
    (htv : (pfx ++ "_total_vol") ∉ statNames valCols) :
    cell (process_domain_features pfx valCols df) k (pfx ++ "_total_vol") =
      some (some (totalVolVal df valCols k)) ∧
    totalVolVal df valCols k = (valCols.map fun c => sumAgg df k c).sum := by
  constructor
  · have hie : df.isEmpty = false := by
      cases df with
      | nil => exact absurd rfl hne
      | cons a l => rfl
    unfold process_domain_features cell
    rw [if_neg (by simp [hie])]
    simp only
    rw [rowFind_groupRows (fun x => volRow pfx df valCols x ++
      [(pfx ++ "_stability", some (stabilityVal pfx df valCols x))])
      (groupKeys df) k hk]
    simp only [Option.some_bind]
    rw [colGet_append]
    unfold volRow
    rw [colGet_append]
    have h1 : colGet (pfx ++ "_total_vol") (statCells df k valCols) = none :=
      colGet_eq_none _ _ (by rw [statCells_fst]; exact htv)
    rw [h1, Option.none_or]
    simp [colGet]
  · unfold totalVolVal
    rw [List.filter_append,
      show keyCols.filter containsSum = [] from by decide, List.nil_append]
    exact totalVol_aux df k valCols hnd hstd

/-- C8 witness: the enrolment feature frame on a concrete two-record table. -/
theorem process_total_vol_witness :
    cell (process_domain_features "enrol" ["enrol_child", "enrol_adult"]
        [(("A", "B", 1), [("enrol_child", 3), ("enrol_adult", 4)]),
         (("A", "B", 1), [("enrol_child", 5), ("enrol_adult", 6)])])
      ("A", "B", 1) "enrol_total_vol" =
        some (some (totalVolVal
          [(("A", "B", 1), [("enrol_child", 3), ("enrol_adult", 4)]),
           (("A", "B", 1), [("enrol_child", 5), ("enrol_adult", 6)])]
          ["enrol_child", "enrol_adult"] ("A", "B", 1))) ∧
    totalVolVal
        [(("A", "B", 1), [("enrol_child", 3), ("enrol_adult", 4)]),
         (("A", "B", 1), [("enrol_child", 5), ("enrol_adult", 6)])]
        ["enrol_child", "enrol_adult"] ("A", "B", 1) =
      (["enrol_child", "enrol_adult"].map fun c => sumAgg
        [(("A", "B", 1), [("enrol_child", 3), ("enrol_adult", 4)]),
         (("A", "B", 1), [("enrol_child", 5), ("enrol_adult", 6)])]
        ("A", "B", 1) c).sum :=
  process_total_vol "enrol" ["enrol_child", "enrol_adult"] _
    (List.cons_ne_nil _ _) ("A", "B", 1) (by decide) (by decide) (by decide)
    (by decide)

theorem totalStd_nonneg (pfx : String) (df : InTable) (valCols : List String)
    (k : Key) (hsum2 : ∀ c ∈ valCols, containsStd (c ++ "_sum") = false)
    (htvstd : containsStd (pfx ++ "_total_vol") = false) :
    0 ≤ totalStdVal pfx df valCols k := by
  unfold totalStdVal
  apply List.sum_nonneg
  intro x hx
  obtain ⟨n, hn, hjoin⟩ := List.mem_filterMap.mp hx
  have hstdn : containsStd n = true := List.of_mem_filter hn
  have hcg : colGet n (volRow pfx df valCols k) = some (some x) := by
    cases hcg : colGet n (volRow pfx df valCols k) with
    | none => rw [hcg] at hjoin; simp [Option.join] at hjoin
    | some w =>
      rw [hcg] at hjoin
      have hw : w = some x := hjoin
      rw [hw]
  have hmem := colGet_mem hcg
  unfold volRow at hmem
  rcases List.mem_append.mp hmem with hmem | hmem
  · obtain ⟨c, hcmem, hor⟩ := statCells_shape hmem
    rcases hor with heq | heq
    · have hn2 : n = c ++ "_sum" := congrArg Prod.fst heq
      rw [hn2, hsum2 c hcmem] at hstdn
      exact absurd hstdn (by simp)
    · have hx2 : sampleStd (groupVals df k c) = some x :=
        (congrArg Prod.snd heq).symm
      exact sampleStd_nonneg hx2
  · have hpair := List.mem_singleton.mp hmem
    have hn2 : n = pfx ++ "_total_vol" := congrArg Prod.fst hpair
    rw [hn2, htvstd] at hstdn
    exact absurd hstdn (by simp)

theorem stability_bounds (pfx : String) (df : InTable) (valCols : List String)
    (k : Key) (h0 : 0 ≤ totalStdVal pfx df valCols k) :
    (0 < totalVolVal df valCols k →
      0 < stabilityVal pfx df valCols k ∧ stabilityVal pfx df valCols k ≤ 10) ∧
    (totalVolVal df valCols k = 0 → stabilityVal pfx df valCols k = 0) := by
  constructor
  · intro hv
    unfold stabilityVal
    rw [if_pos hv]
    have hdiv : 0 ≤ totalStdVal pfx df valCols k / (totalVolVal df valCols k + 1) :=
      div_nonneg h0 (by linarith)
    have hden : (0.1 : ℝ) ≤
        totalStdVal pfx df valCols k / (totalVolVal df valCols k + 1) + 0.1 := by
      linarith
    have hden0 : (0 : ℝ) <
        totalStdVal pfx df valCols k / (totalVolVal df valCols k + 1) + 0.1 :=
      lt_of_lt_of_le (by norm_num) hden
    refine ⟨one_div_pos.mpr hden0, ?_⟩
    calc 1 / (totalStdVal pfx df valCols k / (totalVolVal df valCols k + 1) + 0.1)
        ≤ 1 / 0.1 := one_div_le_one_div_of_le (by norm_num) hden
      _ = 10 := by norm_num
  · intro hv
    unfold stabilityVal
    rw [hv]
    simp

/-- C2: in every row of the Pincode Feature Builder output the
`{domain}_stability` cell is a number, never NaN (a single-observation
group only turns its std cell into NaN, which the row-wise skip-NaN sum
drops); it lies in (0, 10] when the row's total volume is positive and is
exactly 0 when the total volume is 0. -/
theorem process_stability (pfx : String) (valCols : List String) (df : InTable)
    (hne : df ≠ []) (k : Key) (hk : k ∈ groupKeys df)
    (hsum2 : ∀ c ∈ valCols, containsStd (c ++ "_sum") = false)
    (htvstd : containsStd (pfx ++ "_total_vol") = false)
    (hs1 : (pfx ++ "_stability") ∉ statNames valCols)
    (hs2 : (pfx ++ "_stability") ≠ (pfx ++ "_total_vol")) :
    cell (process_domain_features pfx valCols df) k (pfx ++ "_stability") =
      some (some (stabilityVal pfx df valCols k)) ∧
    (0 < totalVolVal df valCols k →
      0 < stabilityVal pfx df valCols k ∧ stabilityVal pfx df valCols k ≤ 10) ∧
    (totalVolVal df valCols k = 0 → stabilityVal pfx df valCols k = 0) := by
  refine ⟨?_, stability_bounds pfx df valCols k
    (totalStd_nonneg pfx df valCols k hsum2 htvstd)⟩
  have hie : df.isEmpty = false := by
    cases df with
    | nil => exact absurd rfl hne
    | cons a l => rfl
  unfold process_domain_features cell
  rw [if_neg (by simp [hie])]
  simp only
  rw [rowFind_groupRows (fun x => volRow pfx df valCols x ++
    [(pfx ++ "_stability", some (stabilityVal pfx df valCols x))])
    (groupKeys df) k hk]
  simp only [Option.some_bind]
  rw [colGet_append]
  have h1 : colGet (pfx ++ "_stability") (volRow pfx df valCols k) = none := by
    apply colGet_eq_none
    rw [volRow_fst]
    intro hx
    rcases List.mem_append.mp hx with hx | hx
    · exact hs1 hx
    · exact hs2 (by simpa using hx)
  rw [h1, Option.none_or]
  simp [colGet]

/-- C2 witness: the stability theorem at a concrete one-record table (a
single observation per group: its std is NaN yet stability is a number). -/
theorem process_stability_witness :
    cell (process_domain_features "enrol" ["enrol_child", "enrol_adult"]
        [(("A", "B", 1), [("enrol_child", 3), ("enrol_adult", 4)])])
      ("A", "B", 1) "enrol_stability" =
        some (some (stabilityVal "enrol"
          [(("A", "B", 1), [("enrol_child", 3), ("enrol_adult", 4)])]
          ["enrol_child", "enrol_adult"] ("A", "B", 1))) ∧
    (0 < totalVolVal [(("A", "B", 1), [("enrol_child", 3), ("enrol_adult", 4)])]
        ["enrol_child", "enrol_adult"] ("A", "B", 1) →
      0 < stabilityVal "enrol"
          [(("A", "B", 1), [("enrol_child", 3), ("enrol_adult", 4)])]
          ["enrol_child", "enrol_adult"] ("A", "B", 1) ∧
        stabilityVal "enrol"
          [(("A", "B", 1), [("enrol_child", 3), ("enrol_adult", 4)])]
          ["enrol_child", "enrol_adult"] ("A", "B", 1) ≤ 10) ∧
    (totalVolVal [(("A", "B", 1), [("enrol_child", 3), ("enrol_adult", 4)])]
        ["enrol_child", "enrol_adult"] ("A", "B", 1) = 0 →
      stabilityVal "enrol"
          [(("A", "B", 1), [("enrol_child", 3), ("enrol_adult", 4)])]
          ["enrol_child", "enrol_adult"] ("A", "B", 1) = 0) :=
  process_stability "enrol" ["enrol_child", "enrol_adult"] _
    (List.cons_ne_nil _ _) ("A", "B", 1) (by decide) (by decide) (by decide)
    (by decide) (by decide)


-- ---------------------------------------------------------------------------
-- generate_health_index (lines 167-245): district aggregation and scoring
-- ---------------------------------------------------------------------------

/-- The (state, district) groupby keys of the merged pincode frame. -/
def distKeys (t : DF) : List (String × String) :=
  (t.rows.map fun r => (r.1.1, r.1.2.1)).dedup

/-- The pincode rows belonging to one district. -/
def distRows (t : DF) (sk : String × String) : List Row :=
  (t.rows.filter fun r => decide (r.1.1 = sk.1 ∧ r.1.2.1 = sk.2)).map Prod.snd

/-- pandas groupby `sum` of column `c` over a district (skip-NaN). -/
noncomputable def aggSum (t : DF) (sk : String × String) (c : String) : ℝ :=
  ((distRows t sk).filterMap fun v => (colGet c v).join).sum

/-- pandas groupby `mean` of column `c` over a district (skip-NaN). -/
noncomputable def aggMean (t : DF) (sk : String × String) (c : String) : ℝ :=
  ((distRows t sk).filterMap fun v => (colGet c v).join).sum /
    ((distRows t sk).filterMap fun v => (colGet c v).join).length

/-- Head-guarded minimum of a column (sklearn works on the column vector). -/
def minL : List ℝ → ℝ
  | [] => 0
  | [a] => a
  | a :: b :: t => min a (minL (b :: t))

/-- Head-guarded maximum of a column. -/
def maxL : List ℝ → ℝ
  | [] => 0
  | [a] => a
  | a :: b :: t => max a (maxL (b :: t))

/-- sklearn `MinMaxScaler.fit_transform` on one value of a column:
`(x - min) / (max - min)`, the zero range replaced by 1
(`handle_zeros_in_scale`), so a constant column maps to 0. -/
noncomputable def minmax (l : List ℝ) (x : ℝ) : ℝ :=
  (x - minL l) / (if maxL l - minL l = 0 then 1 else maxL l - minL l)

/-- Line 190: district enrolment volume (groupby sum). -/
noncomputable def eVol (t : DF) (sk : String × String) : ℝ :=
  aggSum t sk "enrol_total_vol"

/-- Line 191: district mean enrolment stability. -/
noncomputable def eStab (t : DF) (sk : String × String) : ℝ :=
  aggMean t sk "enrol_stability"

noncomputable def bVol (t : DF) (sk : String × String) : ℝ :=
  aggSum t sk "bio_total_vol"

noncomputable def dVol (t : DF) (sk : String × String) : ℝ :=
  aggSum t sk "demo_total_vol"

noncomputable def eChild (t : DF) (sk : String × String) : ℝ :=
  aggSum t sk "enrol_child_sum"

noncomputable def bChild (t : DF) (sk : String × String) : ℝ :=
  aggSum t sk "bio_child_sum"

/-- Lines 197-198: child biometric / child enrolment, 0 on zero enrolment. -/
noncomputable def mbuVal (t : DF) (sk : String × String) : ℝ :=
  if 0 < eChild t sk then bChild t sk / eChild t sk else 0

/-- Line 210: total capacity proxy. -/
noncomputable def capacity (t : DF) (sk : String × String) : ℝ :=
  eVol t sk + bVol t sk + dVol t sk

/-- Lines 190-192: access score. -/
noncomputable def score_enrol (t : DF) (sk : String × String) : ℝ :=
  0.5 * minmax ((distKeys t).map fun x => eVol t x) (eVol t sk) +
    0.5 * minmax ((distKeys t).map fun x => eStab t x) (eStab t sk)

/-- Lines 197-201: compliance score. -/
noncomputable def score_bio (t : DF) (sk : String × String) : ℝ :=
  minmax ((distKeys t).map fun x => mbuVal t x) (mbuVal t sk)

/-- Lines 205-206: accuracy score. -/
noncomputable def score_demo (t : DF) (sk : String × String) : ℝ :=
  minmax ((distKeys t).map fun x => dVol t x) (dVol t sk)

/-- Lines 210-214: infrastructure score. -/
noncomputable def score_infra (t : DF) (sk : String × String) : ℝ :=
  minmax ((distKeys t).map fun x => capacity t x) (capacity t sk)

/-- Lines 218-223: the Identity Health Index of one district. -/
noncomputable def health_index (t : DF) (sk : String × String) : ℝ :=
  (0.30 * score_enrol t sk + 0.35 * score_bio t sk +
    0.25 * score_demo t sk + 0.10 * score_infra t sk) * 100

theorem minL_le {l : List ℝ} {x : ℝ} (h : x ∈ l) : minL l ≤ x := by
  induction l with
  | nil => simp at h
  | cons a t ih =>
    cases t with
    | nil =>
      obtain rfl : x = a := by simpa using h
      simp [minL]
    | cons b t2 =>
      rcases List.mem_cons.mp h with rfl | hx
      · exact min_le_left _ _
      · exact le_trans (min_le_right _ _) (ih hx)

theorem le_maxL {l : List ℝ} {x : ℝ} (h : x ∈ l) : x ≤ maxL l := by
  induction l with
  | nil => simp at h
  | cons a t ih =>
    cases t with
    | nil =>
      obtain rfl : x = a := by simpa using h
      simp [maxL]
    | cons b t2 =>
      rcases List.mem_cons.mp h with rfl | hx
      · exact le_max_left _ _
      · exact le_trans (ih hx) (le_max_right _ _)

theorem minmax_bounds {l : List ℝ} {x : ℝ} (h : x ∈ l) :
    0 ≤ minmax l x ∧ minmax l x ≤ 1 := by
  have h1 : minL l ≤ x := minL_le h
  have h2 : x ≤ maxL l := le_maxL h
  unfold minmax
  by_cases hr : maxL l - minL l = 0
  · have hx0 : x - minL l = 0 := by
      have : x ≤ minL l := by linarith
      linarith [le_antisymm this h1]
    rw [if_pos hr, hx0]
    norm_num
  · have hlt : 0 < maxL l - minL l :=
      lt_of_le_of_ne (by linarith) (Ne.symm hr)
    rw [if_neg hr]
    constructor
    · exact div_nonneg (by linarith) hlt.le
    · rw [div_le_one hlt]
      linarith

/-- C1: for every merged pincode frame with more than one district, every
health index value lies in [0, 100]: each sub-score is a min-max
normalization of a value over the list it belongs to, hence in [0, 1], and
the weights 0.30 + 0.35 + 0.25 + 0.10 sum to 1. -/
theorem generate_health_index_bounds (t : DF) (_hgt1 : 1 < (distKeys t).length)
    (sk : String × String) (hsk : sk ∈ distKeys t) :
    0 ≤ health_index t sk ∧ health_index t sk ≤ 100 := by
  have hbe := minmax_bounds (List.mem_map_of_mem (fun x => eVol t x) hsk)
  have hbs := minmax_bounds (List.mem_map_of_mem (fun x => eStab t x) hsk)
  have hbm := minmax_bounds (List.mem_map_of_mem (fun x => mbuVal t x) hsk)
  have hbd := minmax_bounds (List.mem_map_of_mem (fun x => dVol t x) hsk)
  have hbc := minmax_bounds (List.mem_map_of_mem (fun x => capacity t x) hsk)
  unfold health_index score_enrol score_bio score_demo score_infra
  constructor <;> nlinarith [hbe.1, hbe.2, hbs.1, hbs.2, hbm.1, hbm.2,
    hbd.1, hbd.2, hbc.1, hbc.2]

/-- A concrete two-district merged frame. -/
def twoDistDF : DF :=
  ⟨["enrol_total_vol", "enrol_stability", "bio_total_vol", "bio_stability",
    "demo_total_vol", "enrol_child_sum", "bio_child_sum"],
   [(("A", "B", 1),
     [("enrol_total_vol", some 10), ("enrol_stability", some 5),
      ("bio_total_vol", some 2), ("bio_stability", some 1),
      ("demo_total_vol", some 3), ("enrol_child_sum", some 4),
      ("bio_child_sum", some 2)]),
    (("A", "C", 2),
     [("enrol_total_vol", some 7), ("enrol_stability", some 2),
      ("bio_total_vol", some 5), ("bio_stability", some 3),
      ("demo_total_vol", some 1), ("enrol_child_sum", some 6),
      ("bio_child_sum", some 3)])]⟩

/-- C1 witness: the bound theorem at a concrete two-district frame. -/
theorem generate_health_index_bounds_witness :
    0 ≤ health_index twoDistDF ("A", "B") ∧
      health_index twoDistDF ("A", "B") ≤ 100 :=
  generate_health_index_bounds twoDistDF (by decide) ("A", "B") (by decide)


-- ---------------------------------------------------------------------------
-- analyze_fraud_spikes (lines 268-330): z-score anomaly detection
-- ---------------------------------------------------------------------------

/-- Lines 298-303 on the daily national volume series: a day is anomalous
when `(value - mean) / std > 3`; the pandas std is NaN on fewer than two
observations and a NaN z-score compares false, so no day is flagged then
(Lean's division by zero plays the same non-flagging role where the exact
std is 0). -/
noncomputable def isAnomaly (l : List ℝ) (i : ℕ) : Prop :=
  match sampleStd l with
  | none => False
  | some s => 3 < (l.getD i 0 - meanR l) / s

theorem sum_all_eq {l : List ℝ} {a : ℝ} (h : ∀ x ∈ l, x = a) :
    l.sum = a * l.length := by
  induction l with
  | nil => simp
  | cons b t ih =>
    rw [List.sum_cons, ih fun x hx => h x (by simp [hx]), h b (by simp),
      List.length_cons]
    push_cast
    ring

theorem sampleVar_of_allEq {l : List ℝ} (h : ∀ x ∈ l, ∀ y ∈ l, x = y) :
    sampleVar l = 0 := by
  cases hl : l with
  | nil => simp [sampleVar]
  | cons a t =>
    have hall : ∀ x ∈ l, x = a := fun x hx =>
      h x hx a (by rw [hl]; exact List.mem_cons_self _ _)
    have hmean : meanR l = a := by
      unfold meanR
      rw [sum_all_eq hall]
      have hlen : (l.length : ℝ) ≠ 0 := by
        rw [hl]
        exact Nat.cast_ne_zero.mpr (by simp)
      field_simp
    have hzero : (l.map fun x => (x - meanR l) ^ 2).sum = 0 := by
      apply List.sum_eq_zero
      intro x hx
      obtain ⟨y, hy, rfl⟩ := List.mem_map.mp hx
      rw [hmean, hall y hy]
      ring
    rw [← hl]
    unfold sampleVar
    rw [hzero, zero_div]

/-- C5: a daily series with fewer than two distinct values (all values
equal, which covers the empty and the one-day series) produces no anomaly:
the detector flags no day and the undefined z-score is never treated as a
spike. -/
theorem analyze_fraud_spikes_degenerate (l : List ℝ)
    (h : ∀ x ∈ l, ∀ y ∈ l, x = y) : ∀ i, ¬ isAnomaly l i := by
  intro i
  unfold isAnomaly
  cases hs : sampleStd l with
  | none => simp
  | some s =>
    have hs0 : s = 0 := by
      unfold sampleStd at hs
      by_cases hl : l.length ≤ 1
      · rw [if_pos hl] at hs
        exact absurd hs (by simp)
      · rw [if_neg hl] at hs
        have : Real.sqrt (sampleVar l) = s := by simpa using hs
        rw [← this, sampleVar_of_allEq h, Real.sqrt_zero]
    rw [hs0]
    simp

/-- C5 witness: the degenerate-series theorem at a concrete constant series. -/
theorem analyze_fraud_spikes_degenerate_witness :
    ¬ isAnomaly [(5 : ℝ), 5] 0 :=
  analyze_fraud_spikes_degenerate [(5 : ℝ), 5]
    (by
      intro x hx y hy
      simp at hx hy
      rw [hx, hy]) 0

/-- With the sample (ddof = 1) standard deviation, no member of a series of
at most 10 observations can sit more than 3 sample deviations from the
mean: the squared deviation of a member is at most the full squared
deviation sum, which is `(n-1)` times the sample variance. -/
theorem element_z_bound (l : List ℝ) (hn : (l.length : ℝ) - 1 ≤ 9)
    {x : ℝ} (hx : x ∈ l) :
    (x - meanR l) / Real.sqrt (sampleVar l) ≤ 3 := by
  have hdevsq : (x - meanR l) ^ 2 ≤ ((l.map fun y => (y - meanR l) ^ 2).sum) :=
    List.single_le_sum (fun z hz => by
        obtain ⟨y, hy, rfl⟩ := List.mem_map.mp hz
        positivity)
      _ (List.mem_map.mpr ⟨x, hx, rfl⟩)
  have hlen1 : (1 : ℝ) ≤ l.length := by
    have : l ≠ [] := fun hl => by
      rw [hl] at hx
      simp at hx
    have : 1 ≤ l.length := List.length_pos.mpr this
    exact_mod_cast this
  by_cases hvar : sampleVar l = 0
  · have hd0 : (x - meanR l) ^ 2 = 0 := by
      unfold sampleVar at hvar
      rcases div_eq_zero_iff.mp hvar with h0 | h0
      · nlinarith [hdevsq, sq_nonneg (x - meanR l)]
      · have hlone : l.length = 1 := by
          have hc : (l.length : ℝ) = 1 := by linarith
          exact_mod_cast hc
        obtain ⟨y, hy⟩ := List.length_eq_one.mp hlone
        subst hy
        have hxy : x = y := by simpa using hx
        have hmy : meanR [y] = y := by
          unfold meanR
          simp
        rw [hxy, hmy]
        ring
    have hdz : x - meanR l = 0 := by
      exact sq_eq_zero_iff.mp hd0
    rw [hdz, zero_div]
    norm_num
  · have hvpos : 0 < sampleVar l := by
      have hnn : 0 ≤ sampleVar l := by
        unfold sampleVar
        apply div_nonneg
        · exact List.sum_nonneg fun z hz => by
            obtain ⟨y, hy, rfl⟩ := List.mem_map.mp hz
            positivity
        · nlinarith
      exact lt_of_le_of_ne hnn (Ne.symm hvar)
    have hsq : 0 < Real.sqrt (sampleVar l) := Real.sqrt_pos.mpr hvpos
    rw [div_le_iff₀ hsq]
    have hvarsum : ((l.map fun y => (y - meanR l) ^ 2).sum) =
        ((l.length : ℝ) - 1) * sampleVar l := by
      unfold sampleVar
      by_cases hone : (l.length : ℝ) - 1 = 0
      · rw [hone, div_zero, mul_zero]
        unfold sampleVar at hvar
        rw [hone, div_zero] at hvar
        exact absurd rfl hvar
      · field_simp
    have hbound : (x - meanR l) ^ 2 ≤ 9 * sampleVar l := by
      calc (x - meanR l) ^ 2 ≤ ((l.length : ℝ) - 1) * sampleVar l := by
            rw [← hvarsum]; exact hdevsq
        _ ≤ 9 * sampleVar l := by nlinarith
    nlinarith [Real.sq_sqrt hvpos.le, Real.sqrt_nonneg (sampleVar l),
      sq_nonneg (x - meanR l - 3 * Real.sqrt (sampleVar l))]

/-- C7 (amended): on a 10-day series of nine values in [90, 110] and one
value of 10000, the detector flags NO day: with the sample (ddof = 1)
standard deviation the largest attainable z-score on 10 observations is
9/sqrt(10) < 3, so even the 10000 spike stays below the threshold. -/
theorem analyze_fraud_spikes_ten_days (vs : List ℝ) (hlen : vs.length = 9)
    (_hr : ∀ x ∈ vs, 90 ≤ x ∧ x ≤ 110) (i : ℕ)
    (hi : i < (vs ++ [(10000 : ℝ)]).length) :
    ¬ isAnomaly (vs ++ [(10000 : ℝ)]) i := by
  unfold isAnomaly
  cases hs : sampleStd (vs ++ [(10000 : ℝ)]) with
  | none => simp
  | some s =>
    have hsv : s = Real.sqrt (sampleVar (vs ++ [(10000 : ℝ)])) := by
      unfold sampleStd at hs
      by_cases hl : (vs ++ [(10000 : ℝ)]).length ≤ 1
      · rw [if_pos hl] at hs
        exact absurd hs (by simp)
      · rw [if_neg hl] at hs
        exact (by simpa using hs : _ = s).symm
    have hmem : (vs ++ [(10000 : ℝ)]).getD i 0 ∈ vs ++ [(10000 : ℝ)] := by
      rw [List.getD_eq_getElem _ 0 hi]
      exact List.getElem_mem hi
    have hlen10 : ((vs ++ [(10000 : ℝ)]).length : ℝ) - 1 ≤ 9 := by
      rw [List.length_append, hlen]
      norm_num
    rw [hsv]
    exact not_lt.mpr (element_z_bound _ hlen10 hmem)

/-- C7 witness: the amended no-flag theorem at a concrete series. -/
theorem analyze_fraud_spikes_ten_days_witness :
    ¬ isAnomaly ([(95 : ℝ), 95, 95, 95, 95, 95, 95, 95, 95] ++ [(10000 : ℝ)]) 0 :=
  analyze_fraud_spikes_ten_days [(95 : ℝ), 95, 95, 95, 95, 95, 95, 95, 95] rfl
    (by
      intro x hx
      simp at hx
      rw [hx]
      norm_num) 0 (by simp)

/-- The series of the claim: nine quiet days at 100 and one 10000 spike. -/
noncomputable def spikeSeries : List ℝ :=
  [100, 100, 100, 100, 100, 100, 100, 100, 100, 10000]

/-- C7 counterexample: the 10000 day (index 9) is NOT flagged: its z-score
is 8910 / sqrt(9801000) = 2.846 < 3. -/
theorem analyze_fraud_spikes_spike_not_flagged : ¬ isAnomaly spikeSeries 9 := by
  have hm : meanR spikeSeries = 1090 := by
    norm_num [meanR, spikeSeries, List.sum_cons]
  have hv : sampleVar spikeSeries = 9801000 := by
    norm_num [sampleVar, spikeSeries, List.sum_cons, hm, meanR]
  unfold isAnomaly
  have hs : sampleStd spikeSeries = some (Real.sqrt 9801000) := by
    unfold sampleStd
    rw [if_neg (by norm_num [spikeSeries]), hv]
  rw [hs]
  have hsq : 0 < Real.sqrt 9801000 := Real.sqrt_pos.mpr (by norm_num)
  have hle : (2970 : ℝ) ≤ Real.sqrt 9801000 := by
    rw [Real.le_sqrt (by norm_num) (by norm_num)]
    norm_num
  have hgd : spikeSeries.getD 9 0 = 10000 := by
    norm_num [spikeSeries]
  rw [hgd, hm]
  rw [not_lt, div_le_iff₀ hsq]
  nlinarith


-- ---------------------------------------------------------------------------
-- Risk category ranking (lines 230-233)
-- ---------------------------------------------------------------------------

/-- The distinct cluster labels present in the district table (the groupby
keys of line 231; the clustering itself is an opaque labeling here). -/
def presentClusters (crows : List (ℕ × ℝ)) : List ℕ :=
  (crows.map Prod.fst).dedup

/-- Mean health index of one cluster (line 231). -/
noncomputable def clusterMean (crows : List (ℕ × ℝ)) (c : ℕ) : ℝ :=
  meanR ((crows.filter fun r => r.1 = c).map Prod.snd)

/-- Line 231: the cluster labels sorted by ascending mean health index
(`sort_values().index`). -/
noncomputable def cluster_rank (crows : List (ℕ × ℝ)) : List ℕ :=
  (presentClusters crows).mergeSort
    fun a b => decide (clusterMean crows a ≤ clusterMean crows b)

/-- The rank of a cluster: its position in the sorted label list. -/
noncomputable def clusterRank (crows : List (ℕ × ℝ)) (c : ℕ) : ℕ :=
  List.indexOf c (cluster_rank crows)

/-- Line 232: rank 0 is Critical Risk, rank 1 Moderate, rank 2 Healthy. -/
noncomputable def risk_category (crows : List (ℕ × ℝ)) (c : ℕ) : String :=
  if clusterRank crows c = 0 then "Critical Risk"
  else if clusterRank crows c = 1 then "Moderate" else "Healthy"

/-- C6 (amended): for two districts of one run, a strictly lower cluster
rank gives a less-or-equal mean health index — strictly smaller exactly
when the two cluster means differ; on tied means the ranks still differ,
so the strict form of the claim fails (see the counterexample). -/
theorem cluster_rank_mono (crows : List (ℕ × ℝ)) (a b : ℕ × ℝ)
    (ha : a ∈ crows) (hb : b ∈ crows)
    (hlt : clusterRank crows a.1 < clusterRank crows b.1) :
    clusterMean crows a.1 ≤ clusterMean crows b.1 ∧
    (clusterMean crows a.1 ≠ clusterMean crows b.1 →
      clusterMean crows a.1 < clusterMean crows b.1) := by
  have htrans : ∀ x y z : ℕ,
      (fun a b => decide (clusterMean crows a ≤ clusterMean crows b)) x y = true →
      (fun a b => decide (clusterMean crows a ≤ clusterMean crows b)) y z = true →
      (fun a b => decide (clusterMean crows a ≤ clusterMean crows b)) x z = true := by
    intro x y z hxy hyz
    simp only [decide_eq_true_eq] at hxy hyz ⊢
    exact le_trans hxy hyz
  have htotal : ∀ x y : ℕ,
      ((fun a b => decide (clusterMean crows a ≤ clusterMean crows b)) x y ||
       (fun a b => decide (clusterMean crows a ≤ clusterMean crows b)) y x) = true := by
    intro x y
    simp only [Bool.or_eq_true, decide_eq_true_eq]
    exact le_total _ _
  have hsorted := List.sorted_mergeSort htrans htotal (presentClusters crows)
  have hmema : a.1 ∈ cluster_rank crows := by
    unfold cluster_rank
    rw [List.mem_mergeSort]
    exact List.mem_dedup.mpr (List.mem_map_of_mem Prod.fst ha)
  have hmemb : b.1 ∈ cluster_rank crows := by
    unfold cluster_rank
    rw [List.mem_mergeSort]
    exact List.mem_dedup.mpr (List.mem_map_of_mem Prod.fst hb)
  have hia : clusterRank crows a.1 < (cluster_rank crows).length :=
    List.indexOf_lt_length.mpr hmema
  have hib : clusterRank crows b.1 < (cluster_rank crows).length :=
    List.indexOf_lt_length.mpr hmemb
  have hgete : (cluster_rank crows).get ⟨clusterRank crows a.1, hia⟩ = a.1 :=
    List.indexOf_get hia
  have hgetb : (cluster_rank crows).get ⟨clusterRank crows b.1, hib⟩ = b.1 :=
    List.indexOf_get hib
  have hsorted2 : List.Pairwise
      (fun x y => decide (clusterMean crows x ≤ clusterMean crows y) = true)
      (cluster_rank crows) := hsorted
  have hrel := (List.pairwise_iff_get.mp hsorted2)
    ⟨clusterRank crows a.1, hia⟩ ⟨clusterRank crows b.1, hib⟩ hlt
  rw [hgete, hgetb] at hrel
  have hle : clusterMean crows a.1 ≤ clusterMean crows b.1 := by
    simpa using hrel
  exact ⟨hle, fun hne => lt_of_le_of_ne hle hne⟩

/-- The district table showing ties: clusters 0 and 1 both have mean health
index 5, cluster 2 has 9. -/
noncomputable def tiedRows : List (ℕ × ℝ) := [(0, 5), (1, 5), (2, 9)]

theorem tiedRows_mean0 : clusterMean tiedRows 0 = 5 := by
  norm_num [clusterMean, tiedRows, meanR, List.filter]

theorem tiedRows_mean1 : clusterMean tiedRows 1 = 5 := by
  norm_num [clusterMean, tiedRows, meanR, List.filter]

theorem tiedRows_rank : cluster_rank tiedRows = [0, 1, 2] := by
  unfold cluster_rank
  have hp : presentClusters tiedRows = [0, 1, 2] := by
    norm_num [presentClusters, tiedRows, List.dedup]
  rw [hp]
  apply List.mergeSort_of_sorted
  have hm2 : clusterMean tiedRows 2 = 9 := by
    norm_num [clusterMean, tiedRows, meanR, List.filter]
  refine List.Pairwise.cons ?_ (List.Pairwise.cons ?_ ?_)
  · intro c hc
    rcases List.mem_cons.mp hc with rfl | hc2
    · simp only [tiedRows_mean0, tiedRows_mean1, decide_eq_true_eq]
      norm_num
    · obtain rfl : c = 2 := by simpa using hc2
      simp only [tiedRows_mean0, hm2, decide_eq_true_eq]
      norm_num
  · intro c hc
    obtain rfl : c = 2 := by simpa using hc
    simp only [tiedRows_mean1, hm2, decide_eq_true_eq]
    norm_num
  · simp

/-- C6 counterexample: in a run where clusters 0 and 1 have the same mean
health index, cluster 0 ranks strictly below cluster 1 yet the means are
equal, so the strict ordering of the claim is violated. -/
theorem cluster_rank_not_strict :
    clusterRank tiedRows 0 < clusterRank tiedRows 1 ∧
      clusterMean tiedRows 0 = clusterMean tiedRows 1 := by
  constructor
  · unfold clusterRank
    rw [tiedRows_rank]
    decide
  · rw [tiedRows_mean0, tiedRows_mean1]

/-- C6 witness: the amended monotonicity theorem on a concrete run. -/
theorem cluster_rank_mono_witness :
    clusterMean tiedRows 0 ≤ clusterMean tiedRows 2 ∧
    (clusterMean tiedRows 0 ≠ clusterMean tiedRows 2 →
      clusterMean tiedRows 0 < clusterMean tiedRows 2) :=
  cluster_rank_mono tiedRows (0, 5) (2, 9) (by simp [tiedRows])
    (by simp [tiedRows])
    (by
      unfold clusterRank
      rw [tiedRows_rank]
      decide)


-- ---------------------------------------------------------------------------
-- analyze_pincode_variance (lines 333-374): busiest district and CV
-- ---------------------------------------------------------------------------

/-- Lexicographic order on (state, district): pandas groupby sorts its keys
ascending before `idxmax` scans them. -/
def keyLE (a b : String × String) : Bool :=
  decide (a.1 < b.1) || (decide (a.1 = b.1) && decide (a.2 ≤ b.2))

/-- The district keys in pandas groupby order. -/
def sortedDistKeys (t : DF) : List (String × String) :=
  (t.rows.map fun r => (r.1.1, r.1.2.1)).dedup.mergeSort keyLE

/-- Line 344: `groupby(['state','district'])['total_load'].sum().idxmax()`;
the first key attaining the maximal summed load (None on an empty frame). -/
noncomputable def top_district (t : DF) : Option (String × String) :=
  (sortedDistKeys t).foldl
    (fun acc sk =>
      match acc with
      | none => some sk
      | some best =>
        if aggSum t best "total_load" < aggSum t sk "total_load" then some sk
        else some best)
    none

/-- The non-NaN `total_load` values of the selected district's pincodes
(pandas std and mean both skip NaN). -/
noncomputable def subsetVals (t : DF) : List ℝ :=
  match top_district t with
  | none => []
  | some sk => (distRows t sk).filterMap fun v => (colGet "total_load" v).join

/-- Lines 365-367: `cv = std/mean if mean > 0 else 0`; the sample std is
NaN on a single pincode, and NaN propagates through the division. -/
noncomputable def cvVal (t : DF) : Option ℝ :=
  if 0 < meanR (subsetVals t) then
    (sampleStd (subsetVals t)).map fun s => s / meanR (subsetVals t)
  else some 0

/-- The CV annotated by `analyze_pincode_variance`: computed on the frame
after the in-place `total_load` assignment. -/
noncomputable def analyze_pincode_variance_cv (t : DF) : Option ℝ :=
  cvVal (analyze_pincode_variance_effect t)

/-- C9 (amended): the annotated coefficient of variation is `std/mean` of
the selected district's `total_load` values; it is 0 whenever that mean is
0, and it is 0 whenever the selected district has at least two pincodes
with identical `total_load`. With a single pincode the sample std — and
hence the CV — is NaN, not 0 (see the counterexample). -/
theorem analyze_pincode_variance_cv_spec (t : DF) :
    (meanR (subsetVals (analyze_pincode_variance_effect t)) = 0 →
      analyze_pincode_variance_cv t = some 0) ∧
    (2 ≤ (subsetVals (analyze_pincode_variance_effect t)).length →
      (∀ x ∈ subsetVals (analyze_pincode_variance_effect t),
        ∀ y ∈ subsetVals (analyze_pincode_variance_effect t), x = y) →
      analyze_pincode_variance_cv t = some 0) := by
  constructor
  · intro h0
    unfold analyze_pincode_variance_cv cvVal
    rw [h0]
    norm_num
  · intro hlen hall
    unfold analyze_pincode_variance_cv cvVal
    have hstd : sampleStd (subsetVals (analyze_pincode_variance_effect t)) =
        some 0 := by
      unfold sampleStd
      rw [if_neg (by omega), sampleVar_of_allEq hall, Real.sqrt_zero]
    rw [hstd]
    by_cases hm : 0 < meanR (subsetVals (analyze_pincode_variance_effect t))
    · rw [if_pos hm]
      simp
    · rw [if_neg hm]

/-- A merged frame whose busiest (and only) district has a single pincode
with total load 2 + 2 + 1 = 5. -/
def oneRowMergedDF : DF :=
  ⟨["enrol_total_vol", "bio_total_vol", "demo_total_vol"],
   [(("A", "B", 1),
     [("enrol_total_vol", some 2), ("bio_total_vol", some 2),
      ("demo_total_vol", some 1)])]⟩

theorem oneRowMergedDF_vals :
    subsetVals (analyze_pincode_variance_effect oneRowMergedDF) = [5] := by
  have heff : analyze_pincode_variance_effect oneRowMergedDF =
      ⟨["enrol_total_vol", "bio_total_vol", "demo_total_vol", "total_load"],
       [(("A", "B", 1),
         [("enrol_total_vol", some 2), ("bio_total_vol", some 2),
          ("demo_total_vol", some 1), ("total_load", some 5)])]⟩ := by
    unfold analyze_pincode_variance_effect setCol totalLoadOf cellAdd
    simp [oneRowMergedDF, colGet, Option.join]
    norm_num [setRowCol]
    simp
  rw [heff]
  unfold subsetVals top_district
  have hkeys : sortedDistKeys
      (⟨["enrol_total_vol", "bio_total_vol", "demo_total_vol", "total_load"],
       [(("A", "B", 1),
         [("enrol_total_vol", some 2), ("bio_total_vol", some 2),
          ("demo_total_vol", some 1), ("total_load", some 5)])]⟩ : DF) =
      [("A", "B")] := by
    unfold sortedDistKeys
    simp [List.dedup, List.mergeSort_singleton]
  rw [hkeys]
  simp only [List.foldl]
  unfold distRows
  simp [colGet, Option.join]

/-- C9 counterexample: with a single pincode in the selected district the
loads are trivially uniform, yet the CV is NaN (the sample std of one
observation), not 0. -/
theorem analyze_pincode_variance_cv_singleton :
    analyze_pincode_variance_cv oneRowMergedDF = none ∧
      analyze_pincode_variance_cv oneRowMergedDF ≠ some 0 := by
  have hcv : analyze_pincode_variance_cv oneRowMergedDF = none := by
    unfold analyze_pincode_variance_cv cvVal
    rw [oneRowMergedDF_vals]
    have hm : meanR [(5 : ℝ)] = 5 := by
      unfold meanR
      simp
    rw [hm]
    rw [if_pos (by norm_num)]
    unfold sampleStd
    rw [if_pos (by simp)]
    rfl
  exact ⟨hcv, by rw [hcv]; simp⟩

/-- A merged frame whose single district has two pincodes with identical
total load 5. -/
def twoRowUniformDF : DF :=
  ⟨["enrol_total_vol", "bio_total_vol", "demo_total_vol"],
   [(("A", "B", 1),
     [("enrol_total_vol", some 2), ("bio_total_vol", some 2),
      ("demo_total_vol", some 1)]),
    (("A", "B", 2),
     [("enrol_total_vol", some 1), ("bio_total_vol", some 1),
      ("demo_total_vol", some 3)])]⟩

theorem twoRowUniformDF_vals :
    subsetVals (analyze_pincode_variance_effect twoRowUniformDF) = [5, 5] := by
  have heff : analyze_pincode_variance_effect twoRowUniformDF =
      ⟨["enrol_total_vol", "bio_total_vol", "demo_total_vol", "total_load"],
       [(("A", "B", 1),
         [("enrol_total_vol", some 2), ("bio_total_vol", some 2),
          ("demo_total_vol", some 1), ("total_load", some 5)]),
        (("A", "B", 2),
         [("enrol_total_vol", some 1), ("bio_total_vol", some 1),
          ("demo_total_vol", some 3), ("total_load", some 5)])]⟩ := by
    unfold analyze_pincode_variance_effect setCol totalLoadOf cellAdd
    simp [twoRowUniformDF, colGet, Option.join]
    norm_num [setRowCol]
    simp
  rw [heff]
  unfold subsetVals top_district
  have hkeys : sortedDistKeys
      (⟨["enrol_total_vol", "bio_total_vol", "demo_total_vol", "total_load"],
       [(("A", "B", 1),
         [("enrol_total_vol", some 2), ("bio_total_vol", some 2),
          ("demo_total_vol", some 1), ("total_load", some 5)]),
        (("A", "B", 2),
         [("enrol_total_vol", some 1), ("bio_total_vol", some 1),
          ("demo_total_vol", some 3), ("total_load", some 5)])]⟩ : DF) =
      [("A", "B")] := by
    unfold sortedDistKeys
    simp [List.dedup, List.mergeSort_singleton]
  rw [hkeys]
  simp only [List.foldl]
  unfold distRows
  simp [colGet, Option.join]

/-- C9 witness: the uniform-district case of the amended theorem at a
concrete frame. -/
theorem analyze_pincode_variance_cv_spec_witness :
    analyze_pincode_variance_cv twoRowUniformDF = some 0 :=
  (analyze_pincode_variance_cv_spec twoRowUniformDF).2
    (by rw [twoRowUniformDF_vals]; norm_num)
    (by
      rw [twoRowUniformDF_vals]
      intro x hx y hy
      simp at hx hy
      rw [hx, hy])

end Analyzer
